import Mathlib

/-!
Shallow embedding of the vlotto ticket-buyer (`vlotto_tui.py`) and proofs about
its specification claims.  Python floats are modelled as exact rationals (ℚ)
with an explicit NaN value; dynamically typed RPC results are modelled by small
per-call-site shape types; the RPC boundary itself is an oracle parameter.
-/

namespace Vlotto

/-- A Python float value: a finite rational or NaN. -/
inductive FVal where
  | fin (q : ℚ)
  | nan
deriving DecidableEq, Repr

/-- A dynamically typed value found in an RPC result map (a `sourceamounts`
entry of `getcurrencyconverters`, or a `getcurrencybalance` entry):
an int/float (finite or NaN), a string, or some other non-numeric object. -/
inductive SVal where
  | num (q : ℚ)
  | vnan
  | vstr (s : String)
  | vother
deriving DecidableEq, Repr

/-- ASCII lower-casing of one character, modelling Python `str.lower`. -/
def lowerChar (c : Char) : Char :=
  if 65 ≤ c.toNat ∧ c.toNat ≤ 90 then Char.ofNat (c.toNat + 32) else c

/-- ASCII lower-casing of a string, modelling Python `str.lower`. -/
def lowerStr (s : String) : String := String.mk (s.data.map lowerChar)

/-- Is the first character list a prefix of the second. -/
def isPrefixCL : List Char → List Char → Bool
  | [], _ => true
  | _ :: _, [] => false
  | a :: as, b :: bs => a == b && isPrefixCL as bs

/-- Does the needle occur as a contiguous run of the haystack. -/
def isInfixCL (needle : List Char) : List Char → Bool
  | [] => isPrefixCL needle []
  | l@(_ :: rest) => isPrefixCL needle l || isInfixCL needle rest

/-- Python `needle in hay` on strings. -/
def strContains (hay needle : String) : Bool := isInfixCL needle.data hay.data

/-- Lexicographic code-point comparison of character lists, modelling
Python string `<=` (code-point order). -/
def listLeB : List Char → List Char → Bool
  | [], _ => true
  | _ :: _, [] => false
  | a :: as, b :: bs =>
    if a.toNat < b.toNat then true
    else if b.toNat < a.toNat then false
    else listLeB as bs

/-- Model of Python `float(s)` on a string, for plain decimal literals:
optional sign, digits with an optional fractional part, or `nan`;
`none` models a raised `ValueError`. -/
def parseDecimal (s : String) : Option FVal :=
  let t := lowerStr s.trim
  let sgn : ℚ := if t.startsWith "-" then -1 else 1
  let u := if t.startsWith "-" ∨ t.startsWith "+" then t.drop 1 else t
  if u = "nan" then some .nan
  else
    match u.splitOn "." with
    | [a] =>
      match a.toNat? with
      | some n => some (.fin (sgn * n))
      | none => none
    | [a, b] =>
      match a.toNat?, b.toNat? with
      | some n, some f => some (.fin (sgn * (n + (f : ℚ) / 10 ^ b.length)))
      | some n, none => if b = "" then some (.fin (sgn * n)) else none
      | none, some f => if a = "" then some (.fin (sgn * ((f : ℚ) / 10 ^ b.length))) else none
      | none, none => none
    | _ => none

/-- Round-half-to-even to an integer, as Python `round` does at ties. -/
def roundHalfEven (q : ℚ) : ℤ :=
  let f := ⌊q⌋
  let r := q - f
  if r < 1 / 2 then f
  else if 1 / 2 < r then f + 1
  else if f % 2 = 0 then f else f + 1

/-- Python `round(x, 8)`: round to 8 decimal places. -/
def round8 (q : ℚ) : ℚ := (roundHalfEven (q * 100000000) : ℚ) / 100000000

/-! ## ConverterRouter: `get_best_exact_out_converter` (lines 232-263) -/

/-- `isinstance(v, (int, float, str))` (note `bool` is an `int` in Python). -/
def svalIsNumOrStr : SVal → Bool
  | .num _ => true
  | .vnan => true
  | .vstr _ => true
  | .vother => false

/-- Python `float(v)`; `none` models a raised error (`ValueError`/`TypeError`). -/
def svalFloat : SVal → Option FVal
  | .num q => some (.fin q)
  | .vnan => some .nan
  | .vstr s => parseDecimal s
  | .vother => none

/-- `[float(v) for v in sourceamounts.values() if isinstance(v, (int, float, str))]`
(line 251); `none` models a raised `ValueError` from a non-numeric string. -/
def floatVals : List SVal → Option (List FVal)
  | [] => some []
  | v :: rest =>
    if svalIsNumOrStr v then
      match svalFloat v, floatVals rest with
      | some f, some fs => some (f :: fs)
      | _, _ => none
    else floatVals rest

/-- `[v for v in vals if v == v and v > 0]` (line 252): keep positive non-NaN values. -/
def positiveFinite (fs : List FVal) : List ℚ :=
  fs.filterMap fun f => match f with
    | .fin q => if 0 < q then some q else none
    | .nan => none

/-- One entry of the `getcurrencyconverters` result list.  `fullyqualifiedname`
is `none` when the field is absent or falsy, `sourceamounts` is `none` when the
field is absent or not a dict; its values are listed in dict order. -/
structure Cand where
  fullyqualifiedname : Option String
  sourceamounts : Option (List SVal)
deriving DecidableEq, Repr

/-- Per-candidate processing of the loop body (lines 246-255): `.ok none` is a
skipped candidate (`continue`), `.error ()` a raised `ValueError`, and
`.ok (some (required, via))` keeps the first positive numeric source amount. -/
def candQuote (c : Cand) : Except Unit (Option (ℚ × String)) :=
  match c.fullyqualifiedname with
  | none => .ok none
  | some v =>
    match c.sourceamounts with
    | none => .ok none
    | some [] => .ok none
    | some vs =>
      match floatVals vs with
      | none => .error ()
      | some fs =>
        match positiveFinite fs with
        | [] => .ok none
        | q :: _ => .ok (some (q, v))

/-- Shape of the `getcurrencyconverters` RPC result. -/
inductive ConvCallRes where
  | notList
  | clist (cs : List Cand)
deriving DecidableEq, Repr

/-- Errors raised by `get_best_exact_out_converter`. -/
inductive ConvErr where
  | rpc (msg : String)
  | noConverters
  | valueError
  | noUsableRoute
deriving DecidableEq, Repr

/-- The candidate fold of lines 243-258: keep the best (strictly smaller)
required amount, first seen wins on ties. -/
def selectBest : List Cand → Option (ℚ × String) → Except Unit (Option (ℚ × String))
  | [], best => .ok best
  | c :: rest, best =>
    match candQuote c with
    | .error e => .error e
    | .ok none => selectBest rest best
    | .ok (some (q, v)) =>
      match best with
      | none => selectBest rest (some (q, v))
      | some (bq, bv) =>
        if q < bq then selectBest rest (some (q, v)) else selectBest rest (some (bq, bv))

/-- The `amount` field of the converter query (line 236): `round(float(to_amount), 8)`. -/
def converterQueryAmount (to_amount : ℚ) : ℚ := round8 to_amount

/-- `get_best_exact_out_converter` (lines 232-263), over the RPC result of the
`getcurrencyconverters` query (oracle-supplied, `.error` = transport/RPC error). -/
def get_best_exact_out_converter (res : Except String ConvCallRes) :
    Except ConvErr (ℚ × String) :=
  match res with
  | .error e => .error (.rpc e)
  | .ok .notList => .error .noConverters
  | .ok (.clist []) => .error .noConverters
  | .ok (.clist cs) =>
    match selectBest cs none with
    | .error _ => .error .valueError
    | .ok none => .error .noUsableRoute
    | .ok (some (q, v)) => .ok (round8 q, v)

/-- Spec-side notion (for claim C3, from the spec words only): the required
amount a candidate "quotes", a positive numeric source amount, regardless of
whether the candidate carries a route name. -/
def candPosQuoteSpec (c : Cand) : Option ℚ :=
  match c.sourceamounts with
  | none => none
  | some vs =>
    match positiveFinite (vs.filterMap svalFloat) with
    | [] => none
    | q :: _ => some q

/-- Spec-side function (for claim C3, from the spec words only): the globally
minimal required-source-amount among all candidates quoting a positive numeric
amount. -/
def findCheapestRouteSpec (cs : List Cand) : Option ℚ :=
  match cs.filterMap candPosQuoteSpec with
  | [] => none
  | q :: qs => some (qs.foldl min q)

/-- Minimum by required amount, first seen winning ties, over the quote list. -/
def minFirst : List (ℚ × String) → Option (ℚ × String)
  | [] => none
  | p :: rest =>
    match minFirst rest with
    | none => some p
    | some p' => if p.1 ≤ p'.1 then some p else some p'

/-- The quotes of the candidates that the code keeps (named, with a first
positive numeric source amount), in discovery order. -/
def candQuotes (cs : List Cand) : List (ℚ × String) :=
  cs.filterMap fun c =>
    match candQuote c with
    | .ok (some p) => some p
    | _ => none

/-- Combine an earlier best quote with a later one: the later wins only when
strictly cheaper (the tie break of line 256). -/
def combineBest : Option (ℚ × String) → Option (ℚ × String) → Option (ℚ × String)
  | none, m => m
  | some a, none => some a
  | some a, some b => if b.1 < a.1 then some b else some a

/-- Converter result with a positive quote but no route name (claim C3): the
code skips it, the spec's reading would select it. -/
def c3CexCands : List Cand := [⟨none, some [.num 1]⟩, ⟨some "A", some [.num 5]⟩]

/-! ## Balance lookup: `get_currency_balance` (lines 195-209) -/

/-- Shape of the `getcurrencybalance` RPC result. -/
inductive BalShape where
  | notDict
  | bdict (kvs : List (String × SVal))
deriving DecidableEq, Repr

/-- `get_currency_balance` (lines 195-209): exact key match first, then the
first case-insensitively equal key, else `0.0`; any exception yields `0.0`. -/
def get_currency_balance (res : Except Unit BalShape) (currency : String) : FVal :=
  match res with
  | .error _ => .fin 0
  | .ok .notDict => .fin 0
  | .ok (.bdict kvs) =>
    match kvs.lookup currency with
    | some v => (svalFloat v).getD (.fin 0)
    | none =>
      match kvs.find? (fun kv => lowerStr kv.1 == lowerStr currency) with
      | some kv => (svalFloat kv.2).getD (.fin 0)
      | none => .fin 0

/-! ## ConfirmationGate: `get_tx_confirmations` / `wait_for_tx_confirmed`
(lines 306-328) -/

/-- Shape of the `gettransaction` RPC result; the `confirmations` field is an
integer in the node's schema (−1 = orphaned). -/
inductive TxShape where
  | notDict
  | tdict (confirmations : Option ℤ)
deriving DecidableEq, Repr

/-- `get_tx_confirmations` (lines 306-314): `0` on any exception or non-dict
result, else `tx.get("confirmations", 0)`. -/
def get_tx_confirmations (res : Except Unit TxShape) : ℤ :=
  match res with
  | .error _ => 0
  | .ok .notDict => 0
  | .ok (.tdict c) => c.getD 0

/-- Events of the confirmation-wait loop. -/
inductive WEv where
  | poll (confs : ℤ)
  | wsleep (ms : ℕ)
deriving DecidableEq, Repr

/-- The fixed polling interval of `wait_for_tx_confirmed` (line 328), in ms. -/
def confirmPollIntervalMs : ℕ := 5000

/-- The terminal check of one `wait_for_tx_confirmed` iteration (lines 321-326):
return the count when at or above the threshold, raise when it equals −1,
otherwise keep polling. -/
def waitCheck (confs minConfirmations : ℤ) : Option (Except Unit ℤ) :=
  if confs ≥ minConfirmations then some (.ok confs)
  else if confs = -1 then some (.error ()) else none

/-- `wait_for_tx_confirmed` (lines 317-328) as a fuelled loop over an oracle
stream of `gettransaction` results; `none` means the loop is still polling
after `fuel` iterations (the code itself has no timeout). -/
def wait_for_tx_confirmed (polls : ℕ → Except Unit TxShape) (minConfirmations : ℤ) :
    ℕ → ℕ → List WEv × Option (Except Unit ℤ)
  | _, 0 => ([], none)
  | i, fuel + 1 =>
    match waitCheck (get_tx_confirmations (polls i)) minConfirmations with
    | some r => ([.poll (get_tx_confirmations (polls i))], some r)
    | none =>
      (.poll (get_tx_confirmations (polls i)) :: .wsleep confirmPollIntervalMs ::
         (wait_for_tx_confirmed polls minConfirmations (i + 1) fuel).1,
       (wait_for_tx_confirmed polls minConfirmations (i + 1) fuel).2)

/-! ## LiquidityGuarantor: deficit and swap (lines 630-647, 677-690) -/

/-- Ticket price in vlotto (line 630). -/
def ticket_price : ℚ := 1

/-- The safety buffer fraction (line 478). -/
def buffer_percent : ℚ := 1 / 100

/-- `needed = qty * ticket_price` (line 631). -/
def neededFor (qty : ℕ) : ℚ := qty * ticket_price

/-- `deficit = max(0.0, needed - vlotto_balance)` (line 633). -/
def deficitOf (needed balance : ℚ) : ℚ := max 0 (needed - balance)

/-- The buffer after the negativity clamp (lines 635-637). -/
def effectiveBuffer : ℚ := if buffer_percent < 0 then 0 else buffer_percent

/-- `deficit_with_buffer = deficit * (1.0 + buf) if deficit > 0 else 0.0` (line 639). -/
def deficitWithBuffer (needed balance : ℚ) : ℚ :=
  if 0 < deficitOf needed balance then deficitOf needed balance * (1 + effectiveBuffer) else 0

/-- The `via` field of the conversion request (lines 275-276): attached only
when the route name differs case-insensitively from the destination currency. -/
def sendcurrencyVia (viaName to_currency : String) : Option String :=
  if viaName ≠ "" ∧ lowerStr viaName ≠ lowerStr to_currency then some viaName else none

/-- Conversion-related calls issued before purchasing. -/
inductive LiqEv where
  | converterQuery (amount : ℚ)
  | sendConversion (amountIn : ℚ) (viaUsed : Option String)
deriving DecidableEq, Repr

/-- The conversion calls of a run (lines 646-647 and 677-680, assuming the
user confirms): when the buffered deficit is positive, one converter query for
the buffered amount followed by one `sendcurrency` conversion; otherwise no
conversion call at all. -/
def liquidityPhase (qty : ℕ) (balance : ℚ) (convRes : Except String ConvCallRes) :
    Except ConvErr (List LiqEv) :=
  let dwb := deficitWithBuffer (neededFor qty) balance
  if 0 < dwb then
    match get_best_exact_out_converter convRes with
    | .error e => .error e
    | .ok (required_vrsc, v) =>
      .ok [.converterQuery (converterQueryAmount dwb),
           .sendConversion (round8 required_vrsc) (sendcurrencyVia v "vlotto")]
  else .ok []

/-! ## OfferPool and PurchaseOrchestrator (lines 692-763) -/

/-- A raw entry of the `getoffers` result, holding the fields the purchase loop
extracts from its nested dicts: `offer.txid`, `offer.offer.name` and
`identityid`; `none` stands for a missing or falsy field. -/
structure RawOffer where
  txid : Option String
  name : Option String
  identityid : Option String
deriving DecidableEq, Repr

/-- Shape of a `getoffers` RPC result, as consumed by `extract_offers_list`:
an array, a dict whose sole list-valued field holds the offers, a dict with
zero or several list-valued fields, or any other shape. -/
inductive OffersShape where
  | arr (xs : List RawOffer)
  | dictOneList (xs : List RawOffer)
  | dictOther
  | otherShape
deriving DecidableEq, Repr

/-- `extract_offers_list` (lines 133-140). -/
def extract_offers_list : OffersShape → List RawOffer
  | .arr xs => xs
  | .dictOneList xs => xs
  | .dictOther => []
  | .otherShape => []

/-- The sort key of line 706: the nested ticket name, or `""` when absent. -/
def nameKey (o : RawOffer) : String := o.name.getD ""

/-- Sort order on offers: ascending ticket name (code-point order, as Python
compares strings). -/
def offerLe (a b : RawOffer) : Prop :=
  listLeB (nameKey a).data (nameKey b).data = true

instance : DecidableRel offerLe := fun a b =>
  inferInstanceAs (Decidable (_ = true))

/-- `offers.sort(key=...)` (line 706): Python's stable sort, modelled by
insertion sort on the name key. -/
def sortOffers (offers : List RawOffer) : List RawOffer :=
  List.insertionSort offerLe offers

/-- Availability test of line 712: a truthy txid not in the attempted set. -/
def availOffer (attempted : Finset String) (o : RawOffer) : Bool :=
  match o.txid with
  | some t => decide (t ∉ attempted)
  | none => false

/-- The selection of lines 706-714: the first offer of the sorted pool whose
txid is present and unattempted. -/
def selectNext (offers : List RawOffer) (attempted : Finset String) : Option RawOffer :=
  (sortOffers offers).find? (availOffer attempted)

/-- Shape of the `takeoffer` RPC result: a string, a dict carrying a `txid`
field, or anything else. -/
inductive TakeRpcRes where
  | rstr (s : String)
  | rdictTx (t : String)
  | rother
deriving DecidableEq, Repr

/-- Transaction-id extraction from the takeoffer result (lines 728-732). -/
def extractTxid : TakeRpcRes → Option String
  | .rstr s => if 64 ≤ s.length then some (s.trim.take 64) else none
  | .rdictTx t => some t
  | .rother => none

/-- Truthiness filter on an optional string (`if tx_id ...`, line 739). -/
def truthyStr : Option String → Option String
  | some s => if s = "" then none else some s
  | none => none

instance {ε α : Type} [DecidableEq ε] [DecidableEq α] : DecidableEq (Except ε α)
  | .ok a, .ok b => if h : a = b then .isTrue (by rw [h]) else .isFalse (by simp [h])
  | .ok _, .error _ => .isFalse (by simp)
  | .error _, .ok _ => .isFalse (by simp)
  | .error e, .error f => if h : e = f then .isTrue (by rw [h]) else .isFalse (by simp [h])

/-- Events of the purchase loop, in order of occurrence. -/
inductive Ev where
  | refreshEv (offers : List RawOffer)
  | takeofferEv (offerTxid : String) (res : Except String TakeRpcRes)
  | waitConfEv (txid : String) (res : Except Unit ℤ)
  | sleepEv (ms : ℕ)
deriving DecidableEq, Repr

instance : Inhabited Ev := ⟨.sleepEv 0⟩

/-- One purchased entry (the dict built at lines 437-441 and appended at 734). -/
structure Purchase where
  offer_txid : String
  ticket : String
  result : TakeRpcRes
deriving DecidableEq, Repr

/-- The mutable loop state of lines 696-700. -/
structure OState where
  purchased : List Purchase
  errors : List (String × String)
  attempted : Finset String
  bought : ℕ
  lastTxid : Option String
deriving DecidableEq

def initState : OState := ⟨[], [], ∅, 0, none⟩

/-- Oracle input for one loop iteration: the refresh outcome, the takeoffer
outcome for the selected offer, and the outcomes of the (at most two)
confirmation waits the iteration can perform (`.error ()` stands for the
orphan raise inside `wait_for_tx_confirmed`). -/
structure StepIn where
  refreshRes : Except String OffersShape
  takeRes : Except String TakeRpcRes
  wait1 : Except Unit ℤ
  wait2 : Except Unit ℤ
deriving DecidableEq

/-- The orphan message raised at line 326. -/
def orphanMsg (txid : String) : String :=
  "Transaction " ++ txid ++ " was orphaned (confirmations=-1)"

/-- `"rejected" in err_msg.lower()` (line 746). -/
def isRejectedMsg (msg : String) : Bool := strContains (lowerStr msg) "rejected"

/-- Result of the `try` block of lines 723-743: normal completion, or a raised
exception together with the state at raise time (partial updates kept). -/
inductive TryRes where
  | succ (st : OState)
  | exc (st : OState) (msg : String)
deriving DecidableEq

/-- The `try` block (lines 723-743): `take_ticket_offer` (including its field
validation, lines 401-409), purchase bookkeeping, and the in-try confirmation
wait; also returns the events it emits. -/
def tryBlock (dry : Bool) (qty : ℕ) (inp : StepIn) (o : RawOffer) (otx : String)
    (st : OState) : List Ev × TryRes :=
  match o.name with
  | none => ([], .exc st "Offer missing txid or ticket name")
  | some nm =>
    match o.identityid with
    | none => ([], .exc st "Offer missing identityid")
    | some _ =>
      match inp.takeRes with
      | .error e => ([.takeofferEv otx (.error e)], .exc st e)
      | .ok res =>
        let st2 : OState :=
          { st with purchased := st.purchased ++ [⟨otx, nm, res⟩],
                    bought := st.bought + 1 }
        match truthyStr (extractTxid res) with
        | some t =>
          if st2.bought < qty ∧ dry = false then
            match inp.wait1 with
            | .ok c => ([.takeofferEv otx (.ok res), .waitConfEv t (.ok c)], .succ st2)
            | .error _ =>
              ([.takeofferEv otx (.ok res), .waitConfEv t (.error ())],
               .exc st2 (orphanMsg t))
          else ([.takeofferEv otx (.ok res)], .succ { st2 with lastTxid := some t })
        | none => ([.takeofferEv otx (.ok res)], .succ st2)

/-- The `except` handler (lines 744-758), entered with the state at raise
time; `.error` means the handler itself raised, aborting the run. -/
def handleExc (inp : StepIn) (otx : String) (msg : String) (st : OState) :
    List Ev × Except String OState :=
  if isRejectedMsg msg then
    match st.lastTxid with
    | some lt =>
      match inp.wait2 with
      | .ok c =>
        ([.waitConfEv lt (.ok c)], .ok { st with attempted := st.attempted.erase otx })
      | .error _ => ([.waitConfEv lt (.error ())], .error (orphanMsg lt))
    | none => ([.sleepEv 5000], .ok { st with attempted := st.attempted.erase otx })
  else ([], .ok { st with errors := st.errors ++ [(otx, msg)] })

/-- Outcome of one loop iteration. -/
inductive StepOut where
  | cont (st : OState) (evs : List Ev)
  | brk (st : OState) (evs : List Ev)
  | abort (st : OState) (evs : List Ev) (msg : String)
deriving DecidableEq

/-- One iteration of the purchase loop (lines 702-758). -/
def stepO (dry : Bool) (qty : ℕ) (st : OState) (inp : StepIn) : StepOut :=
  match inp.refreshRes with
  | .error e => .abort st [] e
  | .ok shape =>
    let offers := extract_offers_list shape
    match selectNext offers st.attempted with
    | none => .brk st [.refreshEv offers]
    | some o =>
      let otx := (o.txid).getD ""
      let st1 : OState := { st with attempted := insert otx st.attempted }
      match tryBlock dry qty inp o otx st1 with
      | (evs, .succ st2) => .cont st2 (.refreshEv offers :: evs)
      | (evs, .exc stE msg) =>
        match handleExc inp otx msg stE with
        | (evs2, .ok st2) => .cont st2 (.refreshEv offers :: evs ++ evs2)
        | (evs2, .error m) => .abort stE (.refreshEv offers :: evs ++ evs2) m

/-- Result tag of a run of the loop. -/
inductive RunRes where
  | done (st : OState)
  | aborted (st : OState) (msg : String)
  | fuelOut (st : OState)
deriving DecidableEq

/-- The final state carried by a run result. -/
def RunRes.state : RunRes → OState
  | .done st => st
  | .aborted st _ => st
  | .fuelOut st => st

/-- The final confirmation wait of lines 761-763. -/
def finishRun (dry : Bool) (fw : Except Unit ℤ) (st : OState) : List Ev × RunRes :=
  match st.lastTxid with
  | some lt =>
    if dry = false then
      match fw with
      | .ok c => ([.waitConfEv lt (.ok c)], .done st)
      | .error _ => ([.waitConfEv lt (.error ())], .aborted st (orphanMsg lt))
    else ([], .done st)
  | none => ([], .done st)

/-- The purchase loop (lines 702-763): fuelled iteration of `stepO` over an
oracle stream, followed by the final confirmation wait. -/
def runO (dry : Bool) (qty : ℕ) (oracle : ℕ → StepIn) (fw : Except Unit ℤ) :
    ℕ → ℕ → OState → List Ev × RunRes
  | _, 0, st => ([], .fuelOut st)
  | i, fuel + 1, st =>
    if st.bought < qty then
      match stepO dry qty st (oracle i) with
      | .cont st2 evs =>
        (evs ++ (runO dry qty oracle fw (i + 1) fuel st2).1,
         (runO dry qty oracle fw (i + 1) fuel st2).2)
      | .brk st2 evs =>
        (evs ++ (finishRun dry fw st2).1, (finishRun dry fw st2).2)
      | .abort st2 evs msg => (evs, .aborted st2 msg)
    else
      finishRun dry fw st

/-- A full run from the initial loop state. -/
def runMain (dry : Bool) (qty : ℕ) (oracle : ℕ → StepIn) (fw : Except Unit ℤ)
    (fuel : ℕ) : List Ev × RunRes :=
  runO dry qty oracle fw 0 fuel initState

/-- Ids of the offers of a refreshed pool. -/
def offerIds : List RawOffer → Finset String
  | [] => ∅
  | o :: rest =>
    match o.txid with
    | some t => insert t (offerIds rest)
    | none => offerIds rest

/-- All offer ids observed in the refresh events of a trace. -/
def observedIds : List Ev → Finset String
  | [] => ∅
  | .refreshEv os :: rest => offerIds os ∪ observedIds rest
  | .takeofferEv _ _ :: rest => observedIds rest
  | .waitConfEv _ _ :: rest => observedIds rest
  | .sleepEv _ :: rest => observedIds rest

/-- The offer ids of the purchased result list. -/
def purchasedIds (st : OState) : List String := st.purchased.map Purchase.offer_txid

/-- Is the event a takeoffer submission. -/
def evIsTake : Ev → Bool
  | .takeofferEv _ _ => true
  | _ => false

/-- Is the event a successful takeoffer. -/
def evIsTakeOk : Ev → Bool
  | .takeofferEv _ (.ok _) => true
  | _ => false

/-- Is the event a takeoffer failure whose message indicates rejection. -/
def evIsRejTake : Ev → Bool
  | .takeofferEv _ (.error m) => isRejectedMsg m
  | _ => false

/-- Is the event a confirmation wait. -/
def evIsWaitConf : Ev → Bool
  | .waitConfEv _ _ => true
  | _ => false

/-- Claim C1 as stated, on a trace: between a successful takeoffer and any
later takeoffer there is a confirmation wait. -/
@[reducible]
def c1Claim (evs : List Ev) : Prop :=
  ∀ i ∈ List.range evs.length, ∀ j ∈ List.range evs.length, i < j →
    evIsTakeOk (evs.getD i (Ev.sleepEv 0)) = true →
    evIsTake (evs.getD j (Ev.sleepEv 0)) = true →
    ∃ k ∈ List.range j, i < k ∧ evIsWaitConf (evs.getD k (Ev.sleepEv 0)) = true

/-- Claim C4's scenario prediction, on a trace: a rejected acquisition attempt
that follows some successful purchase is handled by awaiting a confirmation
(the next event is a wait, not a sleep). -/
@[reducible]
def c4ScenarioClaim (evs : List Ev) : Prop :=
  ∀ i < evs.length, evIsRejTake (evs.getD i (Ev.sleepEv 0)) = true →
    (∃ j < i, evIsTakeOk (evs.getD j (Ev.sleepEv 0)) = true) →
    evIsWaitConf (evs.getD (i + 1) (Ev.sleepEv 0)) = true

/-- Offers used by the concrete example runs. -/
def offA : RawOffer := ⟨some "a1", some "A", some "iA"⟩

/-- Second offer used by the concrete example runs. -/
def offB : RawOffer := ⟨some "b1", some "B", some "iB"⟩

/-- Oracle: every takeoffer succeeds, but its result carries no extractable
transaction id (a short string). -/
def c1CexOracle : ℕ → StepIn :=
  fun _ => ⟨.ok (.arr [offA, offB]), .ok (.rstr "ok"), .ok 1, .ok 1⟩

/-- Oracle: every takeoffer succeeds with a dict result carrying a txid. -/
def c1WitOracle : ℕ → StepIn :=
  fun _ => ⟨.ok (.arr [offA, offB]), .ok (.rdictTx "aaa"), .ok 1, .ok 1⟩

/-- Oracle: a first successful purchase, then only rejected attempts. -/
def c4CexOracle : ℕ → StepIn := fun n =>
  if n = 0 then ⟨.ok (.arr [offA, offB]), .ok (.rdictTx "t1"), .ok 1, .ok 1⟩
  else ⟨.ok (.arr [offA, offB]), .error "transaction rejected: utxo in use", .ok 1, .ok 1⟩

/-- Oracle: a single offer, bought at the first attempt. -/
def c2CexOracle : ℕ → StepIn :=
  fun _ => ⟨.ok (.arr [offA]), .ok (.rstr "ok"), .ok 1, .ok 1⟩

/-- The state carried by a try-block result. -/
def TryRes.state : TryRes → OState
  | .succ st => st
  | .exc st _ => st

def c6WitPolls : ℕ → Except Unit TxShape :=
  fun k => .ok (.tdict (some (if k = 0 then 0 else 2)))

def c7Pool : List RawOffer := [⟨some "t1", some "B", none⟩, ⟨some "t2", some "A", none⟩]

/-- Trace property (claim C4): every rejected-error takeoffer event is
immediately followed by the fixed 5-second sleep. -/
def RejSleep (evs : List Ev) : Prop :=
  ∀ i o m, evs.getD i (Ev.sleepEv 0) = Ev.takeofferEv o (.error m) →
    isRejectedMsg m = true → evs.getD (i + 1) (Ev.sleepEv 0) = Ev.sleepEv 5000

/-- Chunk form of `RejSleep`: the sleep follows within the chunk. -/
def RejSleepStrict (evs : List Ev) : Prop :=
  ∀ i o m, evs.getD i (Ev.sleepEv 0) = Ev.takeofferEv o (.error m) →
    isRejectedMsg m = true →
      i + 1 < evs.length ∧ evs.getD (i + 1) (Ev.sleepEv 0) = Ev.sleepEv 5000

/-- Trace property (claim C1): a successful takeoffer with an extractable
transaction id is immediately followed by a confirmation wait on that id,
unless it is the last event of the trace. -/
def SeqOK (evs : List Ev) : Prop :=
  ∀ i o r t, evs.getD i (Ev.sleepEv 0) = Ev.takeofferEv o (.ok r) →
    truthyStr (extractTxid r) = some t →
    (∃ w, evs.getD (i + 1) (Ev.sleepEv 0) = Ev.waitConfEv t w) ∨ evs.length = i + 1

/-- Chunk form of `SeqOK`: the wait follows within the chunk. -/
def SeqOKStrict (evs : List Ev) : Prop :=
  ∀ i o r t, evs.getD i (Ev.sleepEv 0) = Ev.takeofferEv o (.ok r) →
    truthyStr (extractTxid r) = some t →
    i + 1 < evs.length ∧ ∃ w, evs.getD (i + 1) (Ev.sleepEv 0) = Ev.waitConfEv t w

/-! ## Theorems -/

theorem listLeB_total (as bs : List Char) :
    listLeB as bs = true ∨ listLeB bs as = true := by
  induction as generalizing bs with
  | nil => exact Or.inl rfl
  | cons a as ih =>
    cases bs with
    | nil => exact Or.inr rfl
    | cons b bs =>
      rcases Nat.lt_trichotomy a.toNat b.toNat with h | h | h
      · left; simp [listLeB, h]
      · rcases ih bs with h2 | h2
        · left; simp [listLeB, h, h2]
        · right; simp [listLeB, h.symm, h2]
      · right; simp [listLeB, h]

theorem listLeB_trans (as bs cs : List Char) (h1 : listLeB as bs = true)
    (h2 : listLeB bs cs = true) : listLeB as cs = true := by
  induction as generalizing bs cs with
  | nil => rfl
  | cons a as ih =>
    cases bs with
    | nil => simp [listLeB] at h1
    | cons b bs =>
      cases cs with
      | nil => simp [listLeB] at h2
      | cons c cs =>
        by_cases hab : a.toNat < b.toNat
        · by_cases hbc : b.toNat < c.toNat
          · simp [listLeB, Nat.lt_trans hab hbc]
          · by_cases hcb : c.toNat < b.toNat
            · simp [listLeB, hbc, hcb] at h2
            · have hbceq : b.toNat = c.toNat := Nat.le_antisymm
                (Nat.le_of_not_lt hcb) (Nat.le_of_not_lt hbc)
              simp [listLeB, hbceq ▸ hab]
        · by_cases hba : b.toNat < a.toNat
          · simp [listLeB, hab, hba] at h1
          · have habeq : a.toNat = b.toNat := Nat.le_antisymm
              (Nat.le_of_not_lt hba) (Nat.le_of_not_lt hab)
            simp only [listLeB, if_neg hab, if_neg hba] at h1
            by_cases hbc : b.toNat < c.toNat
            · simp [listLeB, habeq ▸ hbc]
            · by_cases hcb : c.toNat < b.toNat
              · simp [listLeB, hbc, hcb] at h2
              · simp only [listLeB, hbc, if_neg hbc, if_neg hcb] at h2
                have hac : ¬ a.toNat < c.toNat := habeq ▸ hbc
                have hca : ¬ c.toNat < a.toNat := habeq ▸ hcb
                simp only [listLeB, if_neg hac, if_neg hca]
                exact ih bs cs h1 h2

instance : IsTotal RawOffer offerLe := ⟨fun a b => listLeB_total _ _⟩

instance : IsTrans RawOffer offerLe := ⟨fun _ _ _ => listLeB_trans _ _ _⟩


/-- C5: the liquidity step computes `deficit = max(0, requiredAmount - currentBalance)`,
and whenever `requiredAmount ≤ currentBalance` the deficit is zero and no
conversion call at all (neither the converter query nor the `sendcurrency`
conversion) is performed, whatever the converter RPC would have answered. -/
theorem c5_no_conversion_when_funded (qty : ℕ) (balance : ℚ)
    (h : neededFor qty ≤ balance) :
    deficitOf (neededFor qty) balance = max 0 (neededFor qty - balance)
    ∧ deficitOf (neededFor qty) balance = 0
    ∧ ∀ convRes, liquidityPhase qty balance convRes = .ok [] := by
  have hd : deficitOf (neededFor qty) balance = 0 := by
    have hle : neededFor qty - balance ≤ 0 := by linarith
    simpa [deficitOf] using max_eq_left hle
  have hdwb : deficitWithBuffer (neededFor qty) balance = 0 := by
    simp [deficitWithBuffer, hd]
  refine ⟨rfl, hd, fun convRes => ?_⟩
  simp [liquidityPhase, hdwb]

theorem c5_witness :
    deficitOf (neededFor 2) 5 = 0 ∧ liquidityPhase 2 5 (.error "down") = .ok [] := by
  have h := c5_no_conversion_when_funded 2 5 (by norm_num [neededFor, ticket_price])
  exact ⟨h.2.1, h.2.2 _⟩

theorem roundHalfEven_intCast (n : ℤ) : roundHalfEven (n : ℚ) = n := by
  simp only [roundHalfEven, Int.floor_intCast, sub_self]
  norm_num

theorem round8_eq_of_mul (q : ℚ) (n : ℤ) (h : q * 100000000 = (n : ℚ)) :
    round8 q = (n : ℚ) / 100000000 := by
  rw [round8, h, roundHalfEven_intCast]

/-- C8: with balance 0, two tickets needed at price 1.0 and the default 1%
buffer, the deficit is 2.0 and the exact-out conversion is queried for 2.02
units (the buffered deficit, rounded to 8 decimal places in the query);
the liquidity phase's first call is the converter query for that amount. -/
theorem c8_buffer_scenario :
    deficitOf (neededFor 2) 0 = 2
    ∧ deficitWithBuffer (neededFor 2) 0 = 202 / 100
    ∧ converterQueryAmount (deficitWithBuffer (neededFor 2) 0) = 202 / 100
    ∧ ∀ convRes evs, liquidityPhase 2 0 convRes = .ok evs →
        evs.head? = some (.converterQuery (202 / 100)) := by
  have h1 : deficitOf (neededFor 2) 0 = 2 := by
    rw [deficitOf]
    norm_num [neededFor, ticket_price]
  have h2 : deficitWithBuffer (neededFor 2) 0 = 202 / 100 := by
    rw [deficitWithBuffer, h1]
    norm_num [effectiveBuffer, buffer_percent]
  have h3 : converterQueryAmount ((202 : ℚ) / 100) = 202 / 100 := by
    rw [converterQueryAmount, round8_eq_of_mul (202 / 100) 202000000 (by norm_num)]
    norm_num
  refine ⟨h1, h2, by rw [h2]; exact h3, fun convRes evs hevs => ?_⟩
  simp only [liquidityPhase, h2] at hevs
  rw [if_pos (by norm_num : (0 : ℚ) < 202 / 100)] at hevs
  rcases hg : get_best_exact_out_converter convRes with e | p
  · rw [hg] at hevs; cases hevs
  · rcases p with ⟨rq, rv⟩
    rw [hg] at hevs
    cases hevs
    simp [List.head?, h3]

theorem c8_witness :
    ∃ evs, liquidityPhase 2 0 (.ok (.clist [⟨some "B", some [.num 3]⟩])) = .ok evs
      ∧ evs.head? = some (.converterQuery (202 / 100)) := by
  have hq : candQuote ⟨some "B", some [.num 3]⟩ = .ok (some (3, "B")) := by
    simp [candQuote, floatVals, svalIsNumOrStr, svalFloat, positiveFinite]
  have hbest : get_best_exact_out_converter (.ok (.clist [⟨some "B", some [.num 3]⟩]))
      = .ok (round8 3, "B") := by
    simp [get_best_exact_out_converter, selectBest, hq]
  have hpos : (0 : ℚ) < deficitWithBuffer (neededFor 2) 0 := by
    rw [c8_buffer_scenario.2.1]
    norm_num
  have hrun : liquidityPhase 2 0 (.ok (.clist [⟨some "B", some [.num 3]⟩]))
      = .ok [.converterQuery (converterQueryAmount (deficitWithBuffer (neededFor 2) 0)),
             .sendConversion (round8 (round8 3)) (sendcurrencyVia "B" "vlotto")] := by
    simp only [liquidityPhase]
    rw [if_pos hpos, hbest]
  exact ⟨_, hrun, c8_buffer_scenario.2.2.2 _ _ hrun⟩

/-- C9: `get_tx_confirmations` returns 0 on a transport error or a non-dict
result instead of propagating, and `wait_for_tx_confirmed` (threshold 1)
treats that 0 as still pending: a stream of failing polls never terminates
the wait, it just keeps polling. -/
theorem c9_transport_errors_keep_polling :
    (∀ e, get_tx_confirmations (.error e) = 0)
    ∧ get_tx_confirmations (.ok .notDict) = 0
    ∧ waitCheck 0 1 = none
    ∧ ∀ polls : ℕ → Except Unit TxShape, (∀ k, polls k = .error ()) →
        ∀ i fuel, (wait_for_tx_confirmed polls 1 i fuel).2 = none := by
  refine ⟨fun e => rfl, rfl, by decide, fun polls h i fuel => ?_⟩
  induction fuel generalizing i with
  | zero => rfl
  | succ n ih =>
    rw [wait_for_tx_confirmed, h i]
    simpa [get_tx_confirmations, waitCheck] using ih (i + 1)

theorem c9_witness :
    (wait_for_tx_confirmed (fun _ => .error ()) 1 0 5).2 = none :=
  c9_transport_errors_keep_polling.2.2.2 (fun _ => .error ()) (fun _ => rfl) 0 5

/-- C10: `get_currency_balance` returns the exact-key match first, otherwise
the value of the first key equal to the requested currency ignoring case, and
0.0 when no key matches, the result is not a dict, the RPC call fails, or the
matched value cannot be converted to a float. -/
theorem c10_balance_lookup (cur : String) :
    (∀ e, get_currency_balance (.error e) cur = .fin 0)
    ∧ get_currency_balance (.ok .notDict) cur = .fin 0
    ∧ (∀ kvs v, kvs.lookup cur = some v →
        get_currency_balance (.ok (.bdict kvs)) cur = (svalFloat v).getD (.fin 0))
    ∧ (∀ kvs kv, kvs.lookup cur = none →
        kvs.find? (fun p => lowerStr p.1 == lowerStr cur) = some kv →
        get_currency_balance (.ok (.bdict kvs)) cur = (svalFloat kv.2).getD (.fin 0))
    ∧ (∀ kvs, kvs.lookup cur = none →
        kvs.find? (fun p => lowerStr p.1 == lowerStr cur) = none →
        get_currency_balance (.ok (.bdict kvs)) cur = .fin 0) := by
  refine ⟨fun e => rfl, rfl, ?_, ?_, ?_⟩ <;> intros <;>
    simp [get_currency_balance, *]

theorem waitCheck_ok (x minc c : ℤ) (h : waitCheck x minc = some (.ok c)) :
    x = c ∧ minc ≤ c := by
  by_cases h1 : x ≥ minc
  · rw [waitCheck, if_pos h1] at h
    cases h
    exact ⟨rfl, h1⟩
  · rw [waitCheck, if_neg h1] at h
    by_cases h2 : x = -1
    · rw [if_pos h2] at h; cases h
    · rw [if_neg h2] at h; cases h

theorem waitCheck_err (x minc : ℤ) (h : waitCheck x minc = some (.error ())) :
    ¬ x ≥ minc ∧ x = -1 := by
  by_cases h1 : x ≥ minc
  · rw [waitCheck, if_pos h1] at h; cases h
  · rw [waitCheck, if_neg h1] at h
    by_cases h2 : x = -1
    · exact ⟨h1, h2⟩
    · rw [if_neg h2] at h; cases h

theorem wait_some_char (polls : ℕ → Except Unit TxShape) (minc : ℤ) :
    ∀ fuel i r, (wait_for_tx_confirmed polls minc i fuel).2 = some r →
      ∃ k, k < fuel
        ∧ (∀ m, m < k → waitCheck (get_tx_confirmations (polls (i + m))) minc = none)
        ∧ waitCheck (get_tx_confirmations (polls (i + k))) minc = some r := by
  intro fuel
  induction fuel with
  | zero => intro i r h; cases h
  | succ n ih =>
    intro i r h
    rw [wait_for_tx_confirmed] at h
    rcases hw : waitCheck (get_tx_confirmations (polls i)) minc with _ | r0
    · rw [hw] at h
      obtain ⟨k, hk, hpend, hterm⟩ := ih (i + 1) r h
      refine ⟨k + 1, by omega, ?_, ?_⟩
      · intro m hm
        cases m with
        | zero => simpa using hw
        | succ m' =>
          have hstep := hpend m' (by omega)
          have heq : i + (m' + 1) = i + 1 + m' := by omega
          rw [heq]
          exact hstep
      · have heq : i + (k + 1) = i + 1 + k := by omega
        rw [heq]
        exact hterm
    · rw [hw] at h
      cases h
      exact ⟨0, by omega, fun m hm => absurd hm (Nat.not_lt_zero m), by simpa using hw⟩

theorem wait_none_char (polls : ℕ → Except Unit TxShape) (minc : ℤ) :
    ∀ fuel i, (wait_for_tx_confirmed polls minc i fuel).2 = none →
      ∀ m, m < fuel → waitCheck (get_tx_confirmations (polls (i + m))) minc = none := by
  intro fuel
  induction fuel with
  | zero => intro i h m hm; omega
  | succ n ih =>
    intro i h m hm
    rw [wait_for_tx_confirmed] at h
    rcases hw : waitCheck (get_tx_confirmations (polls i)) minc with _ | r0
    · rw [hw] at h
      cases m with
      | zero => simpa using hw
      | succ m' =>
        have hstep := ih (i + 1) h m' (by omega)
        have heq : i + (m' + 1) = i + 1 + m' := by omega
        rw [heq]
        exact hstep
    · rw [hw] at h; cases h

theorem wait_reaches (polls : ℕ → Except Unit TxShape) (minc : ℤ) :
    ∀ k i r, waitCheck (get_tx_confirmations (polls (i + k))) minc = some r →
      (∀ m, m < k → waitCheck (get_tx_confirmations (polls (i + m))) minc = none) →
      ∀ fuel, k < fuel → (wait_for_tx_confirmed polls minc i fuel).2 = some r := by
  intro k
  induction k with
  | zero =>
    intro i r hterm hpend fuel hf
    cases fuel with
    | zero => omega
    | succ n =>
      rw [wait_for_tx_confirmed]
      rw [Nat.add_zero] at hterm
      rw [hterm]
  | succ k' ih =>
    intro i r hterm hpend fuel hf
    cases fuel with
    | zero => omega
    | succ n =>
      rw [wait_for_tx_confirmed]
      have h0 : waitCheck (get_tx_confirmations (polls i)) minc = none := by
        simpa using hpend 0 (by omega)
      rw [h0]
      have heq : i + (k' + 1) = i + 1 + k' := by omega
      refine ih (i + 1) r (by rw [← heq]; exact hterm) ?_ n (by omega)
      intro m hm
      have hstep := hpend (m + 1) (by omega)
      have heq2 : i + (m + 1) = i + 1 + m := by omega
      rw [← heq2]
      exact hstep

theorem wait_sleep_evs (polls : ℕ → Except Unit TxShape) (minc : ℤ) :
    ∀ fuel i ms, WEv.wsleep ms ∈ (wait_for_tx_confirmed polls minc i fuel).1 →
      ms = confirmPollIntervalMs := by
  intro fuel
  induction fuel with
  | zero => intro i ms h; cases h
  | succ n ih =>
    intro i ms h
    rw [wait_for_tx_confirmed] at h
    rcases hw : waitCheck (get_tx_confirmations (polls i)) minc with _ | r0
    · rw [hw] at h
      simp only [List.mem_cons] at h
      rcases h with h | h | h
      · cases h
      · cases h; rfl
      · exact ih (i + 1) ms h
    · rw [hw] at h
      simp only [List.mem_singleton] at h
      cases h

/-- C6: `wait_for_tx_confirmed` at threshold 1 polls the stream of
`gettransaction` results at a fixed 5-second interval, with no other terminal
state than these two: it returns the polled confirmation count once it is ≥ 1
(the count returned is the first terminal poll), and raises the orphan error
exactly when the first non-pending poll reads confirmation count −1;
exhausting the fuel (the code itself never stops) means every poll so far was
still pending. -/
theorem c6_wait_behaviour (polls : ℕ → Except Unit TxShape) (fuel : ℕ) :
    (∀ c, (wait_for_tx_confirmed polls 1 0 fuel).2 = some (.ok c) →
        1 ≤ c ∧ ∃ k, k < fuel ∧ get_tx_confirmations (polls k) = c ∧
          ∀ m, m < k → waitCheck (get_tx_confirmations (polls m)) 1 = none)
    ∧ ((wait_for_tx_confirmed polls 1 0 fuel).2 = some (.error ()) →
        ∃ k, k < fuel ∧ get_tx_confirmations (polls k) = -1 ∧
          ∀ m, m < k → waitCheck (get_tx_confirmations (polls m)) 1 = none)
    ∧ (∀ k, get_tx_confirmations (polls k) = -1 →
        (∀ m, m < k → waitCheck (get_tx_confirmations (polls m)) 1 = none) →
        ∀ f, k < f → (wait_for_tx_confirmed polls 1 0 f).2 = some (.error ()))
    ∧ (∀ ms, WEv.wsleep ms ∈ (wait_for_tx_confirmed polls 1 0 fuel).1 → ms = 5000)
    ∧ ((wait_for_tx_confirmed polls 1 0 fuel).2 = none →
        ∀ m, m < fuel → waitCheck (get_tx_confirmations (polls m)) 1 = none) := by
  refine ⟨?_, ?_, ?_, ?_, ?_⟩
  · intro c h
    obtain ⟨k, hk, hpend, hterm⟩ := wait_some_char polls 1 fuel 0 _ h
    simp only [Nat.zero_add] at hpend hterm
    obtain ⟨hx, hc⟩ := waitCheck_ok _ _ _ hterm
    exact ⟨hc, k, hk, hx, hpend⟩
  · intro h
    obtain ⟨k, hk, hpend, hterm⟩ := wait_some_char polls 1 fuel 0 _ h
    simp only [Nat.zero_add] at hpend hterm
    obtain ⟨hge, hm1⟩ := waitCheck_err _ _ hterm
    exact ⟨k, hk, hm1, hpend⟩
  · intro k hk hpend f hf
    have hterm : waitCheck (get_tx_confirmations (polls (0 + k))) 1 = some (.error ()) := by
      simpa [hk] using (by decide : waitCheck (-1) 1 = some (.error ()))
    refine wait_reaches polls 1 k 0 _ hterm ?_ f hf
    intro m hm
    simpa using hpend m hm
  · intro ms h
    exact wait_sleep_evs polls 1 fuel 0 ms h
  · intro h m hm
    have := wait_none_char polls 1 fuel 0 h m hm
    simpa using this

theorem c6_witness :
    1 ≤ (2 : ℤ) ∧ ∃ k, k < 3 ∧ get_tx_confirmations (c6WitPolls k) = 2 ∧
      ∀ m, m < k → waitCheck (get_tx_confirmations (c6WitPolls m)) 1 = none :=
  (c6_wait_behaviour c6WitPolls 3).1 2 (by decide)

theorem c10_witness :
    get_currency_balance (.ok (.bdict [("VRSC", .num 7), ("vlotto", .num 2)]))
      "VLOTTO" = .fin 2 := by
  have h := (c10_balance_lookup "VLOTTO").2.2.2.1
    [("VRSC", .num 7), ("vlotto", .num 2)] ("vlotto", .num 2)
    (by decide) (by decide)
  rw [h]
  rfl

theorem combineBest_none_right (a : Option (ℚ × String)) : combineBest a none = a := by
  cases a <;> rfl

theorem combineBest_assoc (a b c : Option (ℚ × String)) :
    combineBest (combineBest a b) c = combineBest a (combineBest b c) := by
  rcases a with _ | a
  · rfl
  · rcases b with _ | b
    · rfl
    · rcases c with _ | c
      · rw [combineBest_none_right, combineBest_none_right]
      · by_cases hba : b.1 < a.1 <;> by_cases hcb : c.1 < b.1 <;>
          simp only [combineBest, hba, hcb, if_true, if_false, if_pos, if_neg] <;>
          split_ifs <;> first | rfl | (exfalso; linarith)

theorem minFirst_cons (p : ℚ × String) (xs : List (ℚ × String)) :
    minFirst (p :: xs) = combineBest (some p) (minFirst xs) := by
  rcases h : minFirst xs with _ | p'
  · simp [minFirst, h, combineBest]
  · simp only [minFirst, h, combineBest]
    by_cases hle : p.1 ≤ p'.1
    · rw [if_pos hle, if_neg (not_lt.mpr hle)]
    · rw [if_neg hle, if_pos (lt_of_not_le hle)]

theorem minFirst_none_iff (l : List (ℚ × String)) : minFirst l = none ↔ l = [] := by
  cases l with
  | nil => simp [minFirst]
  | cons p xs =>
    rw [minFirst_cons]
    rcases h : minFirst xs with _ | p' <;> simp [combineBest] <;> split_ifs <;> simp

theorem minFirst_spec (l : List (ℚ × String)) (m : ℚ × String)
    (h : minFirst l = some m) :
    m ∈ l ∧ (∀ p ∈ l, m.1 ≤ p.1)
    ∧ ∃ l1 l2, l = l1 ++ m :: l2 ∧ ∀ p ∈ l1, m.1 < p.1 := by
  induction l generalizing m with
  | nil => cases h
  | cons p xs ih =>
    rcases hx : minFirst xs with _ | p'
    · have hxs : xs = [] := (minFirst_none_iff xs).mp hx
      subst hxs
      simp only [minFirst, Option.some.injEq] at h
      subst h
      exact ⟨List.mem_singleton_self _, by simp, [], [], rfl, by simp⟩
    · obtain ⟨hmem, hmin, l1, l2, hdec, hstrict⟩ := ih p' hx
      rw [minFirst_cons, hx] at h
      by_cases hle : p.1 ≤ p'.1
      · rw [combineBest, if_neg (not_lt.mpr hle)] at h
        cases h
        refine ⟨List.mem_cons_self _ xs, ?_, [], xs, rfl, by simp⟩
        intro q hq
        rcases List.mem_cons.mp hq with rfl | hq
        · exact le_refl _
        · exact le_trans hle (hmin q hq)
      · rw [combineBest, if_pos (lt_of_not_le hle)] at h
        cases h
        refine ⟨List.mem_cons_of_mem p hmem, ?_, p :: l1, l2, by simp [hdec], ?_⟩
        · intro q hq
          rcases List.mem_cons.mp hq with rfl | hq
          · exact le_of_lt (lt_of_not_le hle)
          · exact hmin q hq
        · intro q hq
          rcases List.mem_cons.mp hq with rfl | hq
          · exact lt_of_not_le hle
          · exact hstrict q hq

theorem selectBest_eq (cs : List Cand) (h : ∀ c ∈ cs, candQuote c ≠ .error ()) :
    ∀ acc, selectBest cs acc = .ok (combineBest acc (minFirst (candQuotes cs))) := by
  induction cs with
  | nil =>
    intro acc
    simp [selectBest, candQuotes, minFirst, combineBest_none_right]
  | cons c rest ih =>
    intro acc
    have hc := h c (List.mem_cons_self c rest)
    have hrest : ∀ c' ∈ rest, candQuote c' ≠ .error () :=
      fun c' hc' => h c' (List.mem_cons_of_mem c hc')
    rcases hq : candQuote c with e | oq
    · cases e; exact absurd hq hc
    · rcases oq with _ | ⟨q, v⟩
      · have hcq : candQuotes (c :: rest) = candQuotes rest := by
          simp [candQuotes, List.filterMap_cons, hq]
        simp only [selectBest, hq, hcq]
        exact ih hrest acc
      · have hcq : candQuotes (c :: rest) = (q, v) :: candQuotes rest := by
          simp [candQuotes, List.filterMap_cons, hq]
        rw [hcq, minFirst_cons, ← combineBest_assoc]
        rcases acc with _ | ⟨bq, bv⟩
        · simp only [selectBest, hq]
          rw [ih hrest (some (q, v))]
          rfl
        · by_cases hlt : q < bq
          · have hcb : combineBest (some (bq, bv)) (some (q, v)) = some (q, v) := by
              simp [combineBest, hlt]
            simp only [selectBest, hq, if_pos hlt]
            rw [ih hrest (some (q, v)), hcb]
          · have hcb : combineBest (some (bq, bv)) (some (q, v)) = some (bq, bv) := by
              simp [combineBest, hlt]
            simp only [selectBest, hq, if_neg hlt]
            rw [ih hrest (some (bq, bv)), hcb]

/-- C3 (amended): among the candidates that carry a route name and a nonempty
source-amount map, `get_best_exact_out_converter` returns the one whose first
positive numeric source amount is globally minimal, ties broken in favour of
the first seen; it raises an error when no such candidate exists (an unnamed
candidate is skipped even if it quotes a positive amount, and a non-numeric
string amount raises instead). -/
theorem c3_cheapest_route_amended (cs : List Cand)
    (h : ∀ c ∈ cs, candQuote c ≠ .error ()) :
    (get_best_exact_out_converter (.ok (.clist cs)) =
        match minFirst (candQuotes cs) with
        | none => .error (if cs = [] then ConvErr.noConverters else ConvErr.noUsableRoute)
        | some (q, v) => .ok (round8 q, v))
    ∧ (∀ m, minFirst (candQuotes cs) = some m →
        m ∈ candQuotes cs ∧ (∀ p ∈ candQuotes cs, m.1 ≤ p.1)
        ∧ ∃ l1 l2, candQuotes cs = l1 ++ m :: l2 ∧ ∀ p ∈ l1, m.1 < p.1)
    ∧ (minFirst (candQuotes cs) = none ↔ candQuotes cs = []) := by
  refine ⟨?_, fun m hm => minFirst_spec _ m hm, minFirst_none_iff _⟩
  cases cs with
  | nil => simp [get_best_exact_out_converter, candQuotes, minFirst]
  | cons c rest =>
    have hsb := selectBest_eq (c :: rest) h none
    simp only [get_best_exact_out_converter, hsb]
    rcases hm : minFirst (candQuotes (c :: rest)) with _ | ⟨q, v⟩ <;>
      simp [combineBest, hm]

theorem c3_amended_witness :
    get_best_exact_out_converter (.ok (.clist c3CexCands)) =
      match minFirst (candQuotes c3CexCands) with
      | none => .error (if c3CexCands = [] then ConvErr.noConverters
                        else ConvErr.noUsableRoute)
      | some (q, v) => .ok (round8 q, v) :=
  (c3_cheapest_route_amended c3CexCands (by decide)).1

/-- C3 counterexample: on a converter list whose cheapest positive quote (1)
belongs to a candidate without a `fullyqualifiedname`, the code returns the
more expensive named candidate (5, "A"), not the globally minimal quote the
claim describes. -/
theorem c3_counterexample :
    findCheapestRouteSpec c3CexCands = some 1
    ∧ get_best_exact_out_converter (.ok (.clist c3CexCands)) = .ok (5, "A")
    ∧ (5 : ℚ) ≠ 1 := by
  refine ⟨by decide, ?_, by norm_num⟩
  have hsel : selectBest c3CexCands none = .ok (some (5, "A")) := by decide
  have h5 : round8 (5 : ℚ) = 5 := by
    rw [round8_eq_of_mul 5 500000000 (by norm_num)]
    norm_num
  simp only [c3CexCands] at hsel ⊢
  simp [get_best_exact_out_converter, hsel, h5]

theorem selectNext_some (offers : List RawOffer) (att : Finset String) (o : RawOffer)
    (h : selectNext offers att = some o) :
    ∃ t, o.txid = some t ∧ t ∉ att ∧ o ∈ offers := by
  rw [selectNext] at h
  have hp := List.find?_some h
  have hm := List.mem_of_find?_eq_some h
  have hm' : o ∈ offers := (List.mem_insertionSort offerLe).mp hm
  rcases hto : o.txid with _ | t
  · simp [availOffer, hto] at hp
  · refine ⟨t, rfl, ?_, hm'⟩
    simpa [availOffer, hto] using hp

theorem finishRun_evs (dry : Bool) (fw : Except Unit ℤ) (st : OState) :
    (finishRun dry fw st).1 = []
    ∨ ∃ lt w, (finishRun dry fw st).1 = [Ev.waitConfEv lt w] := by
  rcases hlt : st.lastTxid with _ | lt
  · simp [finishRun, hlt]
  · simp only [finishRun, hlt]
    by_cases hd : dry = false
    · rw [if_pos hd]
      rcases fw with e | c
      · exact Or.inr ⟨lt, .error (), rfl⟩
      · exact Or.inr ⟨lt, .ok c, rfl⟩
    · rw [if_neg hd]
      exact Or.inl rfl

theorem finishRun_state (dry : Bool) (fw : Except Unit ℤ) (st : OState) :
    (finishRun dry fw st).2.state = st := by
  rcases hlt : st.lastTxid with _ | lt
  · simp [finishRun, hlt, RunRes.state]
  · simp only [finishRun, hlt]
    by_cases hd : dry = false
    · rw [if_pos hd]
      rcases fw with e | c <;> rfl
    · rw [if_neg hd]
      rfl

theorem finishRun_getD_no_take (dry : Bool) (fw : Except Unit ℤ) (st : OState)
    (i : ℕ) (o : String) (r : Except String TakeRpcRes) :
    (finishRun dry fw st).1.getD i default ≠ Ev.takeofferEv o r := by
  rcases finishRun_evs dry fw st with h | ⟨lt, w, h⟩ <;> rw [h]
  · simp [List.getD]
  · cases i with
    | zero => simp
    | succ n => simp [List.getD]

theorem observedIds_append (xs ys : List Ev) :
    observedIds (xs ++ ys) = observedIds xs ∪ observedIds ys := by
  induction xs with
  | nil => simp [observedIds]
  | cons e rest ih =>
    cases e <;> simp [observedIds, ih, Finset.union_assoc]

theorem observedIds_finish (dry : Bool) (fw : Except Unit ℤ) (st : OState) :
    observedIds (finishRun dry fw st).1 = ∅ := by
  rcases finishRun_evs dry fw st with h | ⟨lt, w, h⟩ <;> rw [h] <;> rfl

theorem listLeB_refl (l : List Char) : listLeB l l = true := by
  induction l with
  | nil => rfl
  | cons a as ih => simp [listLeB, ih]

theorem filter_orderedInsert {α : Type} (r : α → α → Prop) [DecidableRel r]
    (p : α → Bool) (hp : ∀ a b, p a = true → p b = true → r a b)
    (x : α) (l : List α) :
    (List.orderedInsert r x l).filter p = List.filter p (x :: l) := by
  induction l with
  | nil => rfl
  | cons y ys ih =>
    by_cases hxy : r x y
    · simp [List.orderedInsert, hxy]
    · rcases hpx : p x with _ | _
      · simp [List.orderedInsert, hxy, List.filter_cons, hpx, ih]
      · have hpy : p y = false := by
          rcases hpyv : p y with _ | _
          · rfl
          · exact absurd (hp x y hpx hpyv) hxy
        simp [List.orderedInsert, hxy, List.filter_cons, hpx, hpy, ih]

theorem filter_insertionSort {α : Type} (r : α → α → Prop) [DecidableRel r]
    (p : α → Bool) (hp : ∀ a b, p a = true → p b = true → r a b) (l : List α) :
    (List.insertionSort r l).filter p = l.filter p := by
  induction l with
  | nil => rfl
  | cons a l ih =>
    rw [List.insertionSort, filter_orderedInsert r p hp]
    simp [List.filter_cons, ih]

/-- C7: offer selection is deterministic: it is a function of the pool and the
attempted set; the chosen offer is the first of the stable ascending-name
ordering of the pool (a sorted permutation preserving the relative order of
equal names) whose txid is present and unattempted; and no offer is selected
exactly when every offer id of the pool has been attempted. -/
theorem c7_selectNext_deterministic (pool : List RawOffer) (att : Finset String) :
    (∀ pool2 att2, pool2 = pool → att2 = att →
        selectNext pool2 att2 = selectNext pool att)
    ∧ (∃ s : List RawOffer, s.Perm pool ∧ s.Sorted offerLe
        ∧ (∀ k : String, s.filter (fun o => nameKey o == k)
            = pool.filter (fun o => nameKey o == k))
        ∧ selectNext pool att = s.find? (availOffer att))
    ∧ (selectNext pool att = none ↔ ∀ o ∈ pool, ∀ t, o.txid = some t → t ∈ att) := by
  refine ⟨fun pool2 att2 h1 h2 => by rw [h1, h2], ⟨sortOffers pool, ?_, ?_, ?_, rfl⟩, ?_⟩
  · exact List.perm_insertionSort offerLe pool
  · exact List.sorted_insertionSort offerLe pool
  · intro k
    apply filter_insertionSort
    intro a b ha hb
    have ha' : nameKey a = k := by simpa using ha
    have hb' : nameKey b = k := by simpa using hb
    rw [offerLe, ha', hb']
    exact listLeB_refl _
  · rw [selectNext, List.find?_eq_none]
    constructor
    · intro h o ho t ht
      have hos : o ∈ sortOffers pool := by
        rw [sortOffers]
        exact (List.mem_insertionSort offerLe).mpr ho
      have hav := h o hos
      simp [availOffer, ht] at hav
      exact hav
    · intro h o ho
      have ho' : o ∈ pool := (List.mem_insertionSort offerLe).mp ho
      rcases hto : o.txid with _ | t
      · simp [availOffer, hto]
      · have := h o ho' t hto
        simp [availOffer, hto, this]

theorem c7_witness : selectNext c7Pool ({"t1", "t2"} : Finset String) = none :=
  (c7_selectNext_deterministic c7Pool {"t1", "t2"}).2.2.mpr (by
    intro o ho t ht
    fin_cases ho <;> simp_all <;> decide)

theorem getD_oor {α : Type} (l : List α) (n : ℕ) (d : α) (h : l.length ≤ n) :
    l.getD n d = d := by
  simp [List.getD, List.getElem?_eq_none h]

theorem getD_mem_of_lt {α : Type} (l : List α) (n : ℕ) (d : α) (h : n < l.length) :
    l.getD n d ∈ l := by
  rw [List.getD_eq_getElem _ _ h]
  exact List.getElem_mem h

theorem RejSleep_append (xs ys : List Ev) (hxs : RejSleepStrict xs)
    (hys : RejSleep ys) : RejSleep (xs ++ ys) := by
  intro i o m hi hrej
  by_cases hlen : i < xs.length
  · rw [List.getD_append _ _ _ _ hlen] at hi
    obtain ⟨hlt, hnext⟩ := hxs i o m hi hrej
    rw [List.getD_append _ _ _ _ hlt]
    exact hnext
  · have hge : xs.length ≤ i := Nat.le_of_not_lt hlen
    rw [List.getD_append_right _ _ _ _ hge] at hi
    have hge1 : xs.length ≤ i + 1 := by omega
    rw [List.getD_append_right _ _ _ _ hge1]
    have heq : i + 1 - xs.length = (i - xs.length) + 1 := by omega
    rw [heq]
    exact hys _ o m hi hrej

theorem RejSleep_nil : RejSleep [] := by
  intro i o m hi hrej
  rw [getD_oor _ _ _ (by simp)] at hi
  exact Ev.noConfusion hi

theorem RejSleep_finish (dry : Bool) (fw : Except Unit ℤ) (st : OState) :
    RejSleep (finishRun dry fw st).1 := by
  intro i o m hi hrej
  exact absurd hi (by
    rcases finishRun_evs dry fw st with h | ⟨lt, w, h⟩ <;> rw [h]
    · rw [getD_oor _ _ _ (by simp)]
      exact fun hv => Ev.noConfusion hv
    · rcases i with _ | i
      · exact fun hv => Ev.noConfusion hv
      · rw [List.getD_cons_succ, getD_oor _ _ _ (by simp)]
        exact fun hv => Ev.noConfusion hv)

theorem RejSleepStrict_of_no_err (xs : List Ev)
    (h : ∀ o m, Ev.takeofferEv o (.error m) ∉ xs) : RejSleepStrict xs := by
  intro i o m hi hrej
  exfalso
  by_cases hlen : i < xs.length
  · exact h o m (hi ▸ getD_mem_of_lt xs i _ hlen)
  · rw [getD_oor _ _ _ (Nat.le_of_not_lt hlen)] at hi
    exact Ev.noConfusion hi

theorem RejSleepStrict_nonrej_chunk (os : List RawOffer) (tx e : String)
    (he : isRejectedMsg e = false) :
    RejSleepStrict [Ev.refreshEv os, Ev.takeofferEv tx (.error e)] := by
  intro i o m hi hrej
  exfalso
  rcases i with _ | _ | i
  · exact Ev.noConfusion hi
  · have hm : m = e := by
      rw [List.getD_cons_succ, List.getD_cons_zero] at hi
      injection hi with h1 h2
      injection h2 with h3
      exact h3.symm
    rw [hm, he] at hrej
    exact Bool.noConfusion hrej
  · rw [List.getD_cons_succ, List.getD_cons_succ, getD_oor _ _ _ (by simp)] at hi
    exact Ev.noConfusion hi

theorem RejSleepStrict_rejchunk (os : List RawOffer) (tx e : String) :
    RejSleepStrict [Ev.refreshEv os, Ev.takeofferEv tx (.error e), Ev.sleepEv 5000] := by
  intro i o m hi hrej
  rcases i with _ | _ | _ | i
  · exact Ev.noConfusion hi
  · refine ⟨by simp, rfl⟩
  · exact Ev.noConfusion hi
  · rw [List.getD_cons_succ, List.getD_cons_succ, List.getD_cons_succ,
      getD_oor _ _ _ (by simp)] at hi
    exact Ev.noConfusion hi

/-- The rejected handler on an unset `last_txid` sleeps and clears the offer
from the attempted set; all the loop's reachable states with purchases still
to make have `last_txid` unset, so every rejected acquisition attempt in a run
is followed by the 5-second sleep, never by a confirmation wait. -/
theorem runO_rejected_sleep (qty : ℕ) (oracle : ℕ → StepIn) (fw : Except Unit ℤ) :
    ∀ fuel i0 st, (st.lastTxid = none ∨ qty ≤ st.bought) →
      RejSleep (runO false qty oracle fw i0 fuel st).1 := by
  intro fuel
  induction fuel with
  | zero =>
    intro i0 st hinv
    rw [runO]
    exact RejSleep_nil
  | succ fuel ih =>
    intro i0 st hinv
    rw [runO]
    by_cases hb : st.bought < qty
    case neg =>
      rw [if_neg hb]
      exact RejSleep_finish _ _ _
    case pos =>
      rw [if_pos hb]
      have hlast : st.lastTxid = none := by
        rcases hinv with h | h
        · exact h
        · omega
      rcases hr : (oracle i0).refreshRes with e | shape
      · simp only [stepO, hr]
        exact RejSleep_nil
      · simp only [stepO, hr]
        rcases hsel : selectNext (extract_offers_list shape) st.attempted with _ | o2
        · simp only [hsel]
          exact RejSleep_append _ _
            (RejSleepStrict_of_no_err _ (by intro o m; simp))
            (RejSleep_finish _ _ _)
        · simp only [hsel]
          obtain ⟨tx, htx, htxnin, ho2⟩ := selectNext_some _ _ _ hsel
          simp only [htx, Option.getD_some]
          rcases hn : o2.name with _ | nm
          · simp only [tryBlock, hn, handleExc]
            rw [if_neg (by rw [show isRejectedMsg "Offer missing txid or ticket name"
              = false from by decide]; exact Bool.false_ne_true)]
            exact RejSleep_append _ _
              (RejSleepStrict_of_no_err _ (by intro o m; simp))
              (ih (i0 + 1) _ (Or.inl hlast))
          · rcases hid : o2.identityid with _ | iid
            · simp only [tryBlock, hn, hid, handleExc]
              rw [if_neg (by rw [show isRejectedMsg "Offer missing identityid"
                = false from by decide]; exact Bool.false_ne_true)]
              exact RejSleep_append _ _
                (RejSleepStrict_of_no_err _ (by intro o m; simp))
                (ih (i0 + 1) _ (Or.inl hlast))
            · rcases htr : (oracle i0).takeRes with e | res
              · simp only [tryBlock, hn, hid, htr, handleExc]
                rcases hrej : isRejectedMsg e with _ | _
                · rw [if_neg Bool.false_ne_true]
                  exact RejSleep_append _ _
                    (RejSleepStrict_nonrej_chunk _ _ _ hrej)
                    (ih (i0 + 1) _ (Or.inl hlast))
                · rw [if_pos rfl]
                  simp only [hlast]
                  exact RejSleep_append _ _
                    (RejSleepStrict_rejchunk _ _ _)
                    (ih (i0 + 1) _ (Or.inl rfl))
              · simp only [tryBlock, hn, hid, htr]
                rcases hex : truthyStr (extractTxid res) with _ | t
                · simp only [hex]
                  exact RejSleep_append _ _
                    (RejSleepStrict_of_no_err _ (by intro o m; simp))
                    (ih (i0 + 1) _ (Or.inl hlast))
                · simp only [hex]
                  by_cases hq2 : st.bought + 1 < qty
                  · rw [if_pos (show st.bought + 1 < qty ∧ True from ⟨hq2, trivial⟩)]
                    rcases hw1 : (oracle i0).wait1 with e1 | c1
                    · simp only [hw1, handleExc]
                      rcases horph : isRejectedMsg (orphanMsg t) with _ | _
                      · rw [if_neg Bool.false_ne_true]
                        exact RejSleep_append _ _
                          (RejSleepStrict_of_no_err _ (by intro o m; simp))
                          (ih (i0 + 1) _ (Or.inl hlast))
                      · rw [if_pos rfl]
                        simp only [hlast]
                        refine RejSleep_append _ _
                          (RejSleepStrict_of_no_err _ (by intro o m; simp))
                          (ih (i0 + 1) _ (Or.inl rfl))
                    · simp only [hw1]
                      exact RejSleep_append _ _
                        (RejSleepStrict_of_no_err _ (by intro o m; simp))
                        (ih (i0 + 1) _ (Or.inl hlast))
                  · rw [if_neg (by intro hcon; exact hq2 hcon.1)]
                    exact RejSleep_append _ _
                      (RejSleepStrict_of_no_err _ (by intro o m; simp))
                      (ih (i0 + 1) _ (Or.inr (show qty ≤ st.bought + 1 by omega)))

/-- C4 (amended): a failure whose message indicates rejection makes the
handler remove the offer id from the attempted set (retryable); it awaits the
confirmation of `last_txid` when that is set and sleeps a fixed 5 seconds
otherwise; and since `last_txid` is only assigned to a purchase whose inline
confirmation wait is skipped (the final purchase, or dry-run), every rejected
attempt of a real (non-dry) run — the spec's scenario included — takes the
5-second sleep, the prior purchase's confirmation having already been awaited
in its own success branch. -/
theorem c4_rejected_handling_amended (qty : ℕ) (oracle : ℕ → StepIn)
    (fw : Except Unit ℤ) (fuel : ℕ) :
    (∀ inp otx msg (st : OState), isRejectedMsg msg = true → st.lastTxid = none →
        handleExc inp otx msg st =
          ([Ev.sleepEv 5000], .ok { st with attempted := st.attempted.erase otx }))
    ∧ (∀ inp otx msg (st : OState) (lt : String), isRejectedMsg msg = true →
        st.lastTxid = some lt →
        handleExc inp otx msg st =
          match inp.wait2 with
          | .ok c => ([Ev.waitConfEv lt (.ok c)],
              .ok { st with attempted := st.attempted.erase otx })
          | .error _ => ([Ev.waitConfEv lt (.error ())], .error (orphanMsg lt)))
    ∧ (∀ inp otx msg (st : OState), isRejectedMsg msg = false →
        handleExc inp otx msg st = ([], .ok { st with errors := st.errors ++ [(otx, msg)] }))
    ∧ RejSleep (runMain false qty oracle fw fuel).1 := by
  refine ⟨?_, ?_, ?_, ?_⟩
  · intro inp otx msg st h1 h2
    simp [handleExc, h1, h2]
  · intro inp otx msg st lt h1 h2
    rcases hw : inp.wait2 with e | c
    · cases e
      simp [handleExc, h1, h2, hw]
    · simp [handleExc, h1, h2, hw]
  · intro inp otx msg st h1
    simp [handleExc, h1]
  · exact runO_rejected_sleep qty oracle fw fuel 0 initState (Or.inl rfl)

theorem c4_witness :
    handleExc ⟨.ok .otherShape, .ok .rother, .ok 1, .ok 1⟩ "x" "tx rejected" initState
      = ([Ev.sleepEv 5000], .ok { initState with attempted := initState.attempted.erase "x" })
    ∧ (runMain false 2 c4CexOracle (.ok 1) 2).1.getD 5 (Ev.sleepEv 0) = Ev.sleepEv 5000 :=
  ⟨(c4_rejected_handling_amended 2 c4CexOracle (.ok 1) 2).1 _ "x" "tx rejected"
      initState (by decide) rfl,
   (c4_rejected_handling_amended 2 c4CexOracle (.ok 1) 2).2.2.2 4 "b1"
      "transaction rejected: utxo in use" (by decide) (by decide)⟩

/-- C4 counterexample: in the spec's scenario (first purchase succeeds with a
known txid, second attempt rejected), the orchestrator does not await the
prior transaction's confirmation — `last_txid` is still unset mid-run, so the
event after the rejected takeoffer is the fixed sleep, not a wait. -/
theorem c4_counterexample : ¬ c4ScenarioClaim (runMain false 2 c4CexOracle (.ok 1) 2).1 := by
  decide

theorem SeqOK_append (xs ys : List Ev) (hxs : SeqOKStrict xs) (hys : SeqOK ys) :
    SeqOK (xs ++ ys) := by
  intro i o r t hi ht
  by_cases hlen : i < xs.length
  · rw [List.getD_append _ _ _ _ hlen] at hi
    obtain ⟨hlt, w, hnext⟩ := hxs i o r t hi ht
    rw [List.getD_append _ _ _ _ hlt]
    exact Or.inl ⟨w, hnext⟩
  · have hge : xs.length ≤ i := Nat.le_of_not_lt hlen
    rw [List.getD_append_right _ _ _ _ hge] at hi
    rcases hys _ o r t hi ht with ⟨w, hnext⟩ | hl
    · left
      refine ⟨w, ?_⟩
      rw [List.getD_append_right _ _ _ _ (by omega : xs.length ≤ i + 1),
        show i + 1 - xs.length = (i - xs.length) + 1 by omega]
      exact hnext
    · right
      rw [List.length_append]
      omega

theorem SeqOK_nil : SeqOK [] := by
  intro i o r t hi ht
  rw [getD_oor _ _ _ (by simp)] at hi
  exact Ev.noConfusion hi

theorem SeqOK_finish (dry : Bool) (fw : Except Unit ℤ) (st : OState) :
    SeqOK (finishRun dry fw st).1 := by
  intro i o r t hi ht
  exact absurd hi (by
    rcases finishRun_evs dry fw st with h | ⟨lt, w, h⟩ <;> rw [h]
    · rw [getD_oor _ _ _ (by simp)]
      exact fun hv => Ev.noConfusion hv
    · rcases i with _ | i
      · exact fun hv => Ev.noConfusion hv
      · rw [List.getD_cons_succ, getD_oor _ _ _ (by simp)]
        exact fun hv => Ev.noConfusion hv)

theorem SeqOKStrict_of_no_takeok (xs : List Ev)
    (h : ∀ o r, Ev.takeofferEv o (.ok r) ∉ xs) : SeqOKStrict xs := by
  intro i o r t hi ht
  exfalso
  by_cases hlen : i < xs.length
  · exact h o r (hi ▸ getD_mem_of_lt xs i _ hlen)
  · rw [getD_oor _ _ _ (Nat.le_of_not_lt hlen)] at hi
    exact Ev.noConfusion hi

theorem SeqOKStrict_noTx_chunk (os : List RawOffer) (tx : String) (res : TakeRpcRes)
    (hres : truthyStr (extractTxid res) = none) :
    SeqOKStrict [Ev.refreshEv os, Ev.takeofferEv tx (.ok res)] := by
  intro i o r t hi ht
  exfalso
  rcases i with _ | _ | i
  · exact Ev.noConfusion hi
  · have hr : r = res := by
      rw [List.getD_cons_succ, List.getD_cons_zero] at hi
      injection hi with h1 h2
      injection h2 with h3
      exact h3.symm
    rw [hr, hres] at ht
    exact Option.noConfusion ht
  · rw [List.getD_cons_succ, List.getD_cons_succ, getD_oor _ _ _ (by simp)] at hi
    exact Ev.noConfusion hi

theorem SeqOKStrict_wait_chunk (os : List RawOffer) (tx : String) (res : TakeRpcRes)
    (t0 : String) (w : Except Unit ℤ) (tail : List Ev)
    (hex : truthyStr (extractTxid res) = some t0)
    (htail : ∀ o r, Ev.takeofferEv o (.ok r) ∉ tail) :
    SeqOKStrict (Ev.refreshEv os :: Ev.takeofferEv tx (.ok res)
      :: Ev.waitConfEv t0 w :: tail) := by
  intro i o r t hi ht
  rcases i with _ | _ | _ | i
  · exact absurd hi (fun hv => Ev.noConfusion hv)
  · have hr : r = res := by
      rw [List.getD_cons_succ, List.getD_cons_zero] at hi
      injection hi with h1 h2
      injection h2 with h3
      exact h3.symm
    have ht0 : t = t0 := by
      rw [hr, hex] at ht
      injection ht with h4
      exact h4.symm
    exact ⟨by simp, w, by rw [ht0]; rfl⟩
  · exact absurd hi (fun hv => Ev.noConfusion hv)
  · exfalso
    rw [List.getD_cons_succ, List.getD_cons_succ, List.getD_cons_succ] at hi
    by_cases hlen : i < tail.length
    · exact htail o r (hi ▸ getD_mem_of_lt tail i _ hlen)
    · rw [getD_oor _ _ _ (Nat.le_of_not_lt hlen)] at hi
      exact Ev.noConfusion hi

theorem SeqOK_of_strict (xs : List Ev) (h : SeqOKStrict xs) : SeqOK xs := by
  intro i o r t hi ht
  obtain ⟨hlt, w, hnext⟩ := h i o r t hi ht
  exact Or.inl ⟨w, hnext⟩

theorem SeqOK_endchunk (os : List RawOffer) (tx : String) (res : TakeRpcRes) :
    SeqOK [Ev.refreshEv os, Ev.takeofferEv tx (.ok res)] := by
  intro i o r t hi ht
  rcases i with _ | _ | i
  · exact absurd hi (fun hv => Ev.noConfusion hv)
  · right; rfl
  · exfalso
    rw [List.getD_cons_succ, List.getD_cons_succ, getD_oor _ _ _ (by simp)] at hi
    exact Ev.noConfusion hi

/-- Every successful takeoffer whose result yields a transaction id is
followed, before anything else happens, by the confirmation wait on that id
(or the trace ends there, out of fuel). -/
theorem runO_seqOK (qty : ℕ) (oracle : ℕ → StepIn) (fw : Except Unit ℤ) :
    ∀ fuel i0 st, (st.lastTxid = none ∨ qty ≤ st.bought) →
      SeqOK (runO false qty oracle fw i0 fuel st).1 := by
  intro fuel
  induction fuel with
  | zero =>
    intro i0 st hinv
    rw [runO]
    exact SeqOK_nil
  | succ fuel ih =>
    intro i0 st hinv
    rw [runO]
    by_cases hb : st.bought < qty
    case neg =>
      rw [if_neg hb]
      exact SeqOK_finish _ _ _
    case pos =>
      rw [if_pos hb]
      have hlast : st.lastTxid = none := by
        rcases hinv with h | h
        · exact h
        · omega
      rcases hr : (oracle i0).refreshRes with e | shape
      · simp only [stepO, hr]
        exact SeqOK_nil
      · simp only [stepO, hr]
        rcases hsel : selectNext (extract_offers_list shape) st.attempted with _ | o2
        · simp only [hsel]
          exact SeqOK_append _ _
            (SeqOKStrict_of_no_takeok _ (by intro o r; simp))
            (SeqOK_finish _ _ _)
        · simp only [hsel]
          obtain ⟨tx, htx, htxnin, ho2⟩ := selectNext_some _ _ _ hsel
          simp only [htx, Option.getD_some]
          rcases hn : o2.name with _ | nm
          · simp only [tryBlock, hn, handleExc]
            rw [if_neg (by rw [show isRejectedMsg "Offer missing txid or ticket name"
              = false from by decide]; exact Bool.false_ne_true)]
            exact SeqOK_append _ _
              (SeqOKStrict_of_no_takeok _ (by intro o r; simp))
              (ih (i0 + 1) _ (Or.inl hlast))
          · rcases hid : o2.identityid with _ | iid
            · simp only [tryBlock, hn, hid, handleExc]
              rw [if_neg (by rw [show isRejectedMsg "Offer missing identityid"
                = false from by decide]; exact Bool.false_ne_true)]
              exact SeqOK_append _ _
                (SeqOKStrict_of_no_takeok _ (by intro o r; simp))
                (ih (i0 + 1) _ (Or.inl hlast))
            · rcases htr : (oracle i0).takeRes with e | res
              · simp only [tryBlock, hn, hid, htr, handleExc]
                rcases hrej : isRejectedMsg e with _ | _
                · rw [if_neg Bool.false_ne_true]
                  exact SeqOK_append _ _
                    (SeqOKStrict_of_no_takeok _ (by intro o r; simp))
                    (ih (i0 + 1) _ (Or.inl hlast))
                · rw [if_pos rfl]
                  simp only [hlast]
                  exact SeqOK_append _ _
                    (SeqOKStrict_of_no_takeok _ (by intro o r; simp))
                    (ih (i0 + 1) _ (Or.inl rfl))
              · simp only [tryBlock, hn, hid, htr]
                rcases hex : truthyStr (extractTxid res) with _ | t
                · simp only [hex]
                  exact SeqOK_append _ _
                    (SeqOKStrict_noTx_chunk _ _ _ hex)
                    (ih (i0 + 1) _ (Or.inl hlast))
                · simp only [hex]
                  by_cases hq2 : st.bought + 1 < qty
                  · rw [if_pos (show st.bought + 1 < qty ∧ True from ⟨hq2, trivial⟩)]
                    rcases hw1 : (oracle i0).wait1 with e1 | c1
                    · simp only [hw1, handleExc]
                      rcases horph : isRejectedMsg (orphanMsg t) with _ | _
                      · rw [if_neg Bool.false_ne_true]
                        exact SeqOK_append _ _
                          (SeqOKStrict_wait_chunk _ _ _ _ _ _ hex (by intro o r; simp))
                          (ih (i0 + 1) _ (Or.inl hlast))
                      · rw [if_pos rfl]
                        simp only [hlast]
                        exact SeqOK_append _ _
                          (SeqOKStrict_wait_chunk _ _ _ _ _ _ hex (by intro o r; simp))
                          (ih (i0 + 1) _ (Or.inl rfl))
                    · simp only [hw1]
                      exact SeqOK_append _ _
                        (SeqOKStrict_wait_chunk _ _ _ _ _ _ hex (by intro o r; simp))
                        (ih (i0 + 1) _ (Or.inl hlast))
                  · rw [if_neg (by intro hcon; exact hq2 hcon.1)]
                    cases fuel with
                    | zero =>
                      simp only [runO]
                      simpa using SeqOK_endchunk (extract_offers_list shape) tx res
                    | succ fuel2 =>
                      simp only [runO]
                      rw [if_neg hq2]
                      rcases fw with e2 | c2 <;>
                        simp only [finishRun, List.cons_append, List.nil_append] <;>
                        exact SeqOK_of_strict _
                          (SeqOKStrict_wait_chunk _ _ _ _ _ _ hex
                            (by intro o r; simp))

/-- C1 (amended): whenever a successful takeoffer's result yields an
extractable transaction id, the orchestrator blocks on the confirmation wait
for that id as the very next event, before any later takeoffer is submitted
(the claim as stated fails only when no id can be extracted from the result,
see the counterexample). -/
theorem c1_sequencing_amended (qty : ℕ) (oracle : ℕ → StepIn) (fw : Except Unit ℤ)
    (fuel : ℕ) (i j : ℕ) (o o' : String) (r : TakeRpcRes)
    (rr : Except String TakeRpcRes) (t : String)
    (hi : (runMain false qty oracle fw fuel).1.getD i (Ev.sleepEv 0)
      = Ev.takeofferEv o (.ok r))
    (ht : truthyStr (extractTxid r) = some t)
    (hij : i < j)
    (hj : (runMain false qty oracle fw fuel).1.getD j (Ev.sleepEv 0)
      = Ev.takeofferEv o' rr) :
    ∃ w, (runMain false qty oracle fw fuel).1.getD (i + 1) (Ev.sleepEv 0)
        = Ev.waitConfEv t w
      ∧ i + 1 < j := by
  have hseq : SeqOK (runMain false qty oracle fw fuel).1 :=
    runO_seqOK qty oracle fw fuel 0 initState (Or.inl rfl)
  have hjlen : j < (runMain false qty oracle fw fuel).1.length := by
    by_contra hc
    rw [getD_oor _ _ _ (Nat.le_of_not_lt hc)] at hj
    exact Ev.noConfusion hj
  rcases hseq i o r t hi ht with ⟨w, hw⟩ | hlen
  · refine ⟨w, hw, ?_⟩
    rcases Nat.lt_or_ge (i + 1) j with h | h
    · exact h
    · exfalso
      have hji : j = i + 1 := by omega
      rw [hji, hw] at hj
      exact Ev.noConfusion hj
  · omega

theorem c1_witness :
    ∃ w, (runMain false 2 c1WitOracle (.ok 1) 3).1.getD 2 (Ev.sleepEv 0)
        = Ev.waitConfEv "aaa" w
      ∧ 2 < 4 :=
  c1_sequencing_amended 2 c1WitOracle (.ok 1) 3 1 4 "a1" "b1" (.rdictTx "aaa")
    (.ok (.rdictTx "aaa")) "aaa" (by decide) (by decide) (by omega) (by decide)

/-- C1 counterexample: when the takeoffer result carries no extractable
transaction id (here a short string), the orchestrator submits the next
purchase with no confirmation wait in between, so the claim as stated — every
successful purchase is confirmed before the next submission — fails. -/
theorem c1_counterexample : ¬ c1Claim (runMain false 2 c1CexOracle (.ok 1) 3).1 := by
  decide

theorem mem_offerIds (offers : List RawOffer) (o : RawOffer) (t : String)
    (ho : o ∈ offers) (ht : o.txid = some t) : t ∈ offerIds offers := by
  induction offers with
  | nil => cases ho
  | cons a rest ih =>
    rcases List.mem_cons.mp ho with rfl | ho2
    · simp [offerIds, ht]
    · rcases hta : a.txid with _ | t2 <;> simp only [offerIds, hta]
      · exact ih ho2
      · exact Finset.mem_insert_of_mem (ih ho2)

set_option maxHeartbeats 2000000 in
/-- The loop's bookkeeping invariants: no id is purchased twice, every
attempted id was seen in a refresh, and purchased ids stay attempted.  The
oracle hypothesis `H` says extracted transaction ids never contain the
substring "rejected" (as hex transaction ids never do), ruling out the orphan
message of a confirmation wait being mistaken for a rejected acquisition. -/
theorem runO_invariants (qty : ℕ) (oracle : ℕ → StepIn) (fw : Except Unit ℤ)
    (H : ∀ n r t, (oracle n).takeRes = .ok r → truthyStr (extractTxid r) = some t →
        isRejectedMsg (orphanMsg t) = false) :
    ∀ fuel i0 st (O : Finset String),
      (∀ x ∈ st.attempted, x ∈ O) →
      (purchasedIds st).Nodup →
      (∀ x ∈ purchasedIds st, x ∈ st.attempted) →
      ((purchasedIds (runO false qty oracle fw i0 fuel st).2.state).Nodup
      ∧ (∀ x ∈ (runO false qty oracle fw i0 fuel st).2.state.attempted,
          x ∈ O ∪ observedIds (runO false qty oracle fw i0 fuel st).1)
      ∧ (∀ x ∈ purchasedIds (runO false qty oracle fw i0 fuel st).2.state,
          x ∈ (runO false qty oracle fw i0 fuel st).2.state.attempted)) := by
  intro fuel
  induction fuel with
  | zero =>
    intro i0 st O hA hN hP
    rw [runO]
    exact ⟨hN, fun x hx => Finset.mem_union_left _ (hA x hx), hP⟩
  | succ fuel ih =>
    intro i0 st O hA hN hP
    rw [runO]
    by_cases hb : st.bought < qty
    case neg =>
      rw [if_neg hb]
      rw [finishRun_state, observedIds_finish]
      exact ⟨hN, fun x hx => Finset.mem_union_left _ (hA x hx), hP⟩
    case pos =>
      rw [if_pos hb]
      rcases hr : (oracle i0).refreshRes with e | shape
      · simp only [stepO, hr, RunRes.state]
        exact ⟨hN, fun x hx => Finset.mem_union_left _ (hA x hx), hP⟩
      · simp only [stepO, hr]
        rcases hsel : selectNext (extract_offers_list shape) st.attempted with _ | o2
        · simp only [hsel]
          rw [finishRun_state]
          refine ⟨hN, ?_, hP⟩
          intro x hx
          simp only [List.cons_append, List.nil_append, observedIds, observedIds_finish,
            Finset.mem_union]
          exact Or.inl (hA x hx)
        · simp only [hsel]
          obtain ⟨tx, htx, htxnin, ho2⟩ := selectNext_some _ _ _ hsel
          simp only [htx, Option.getD_some]
          have hobs : tx ∈ offerIds (extract_offers_list shape) :=
            mem_offerIds _ _ _ ho2 htx
          have hA1 : ∀ x ∈ insert tx st.attempted,
              x ∈ O ∪ offerIds (extract_offers_list shape) := by
            intro x hx
            rcases Finset.mem_insert.mp hx with rfl | hx2
            · exact Finset.mem_union_right _ hobs
            · exact Finset.mem_union_left _ (hA x hx2)
          have hAO : ∀ x ∈ st.attempted, x ∈ O ∪ offerIds (extract_offers_list shape) :=
            fun x hx => Finset.mem_union_left _ (hA x hx)
          have hP1 : ∀ x ∈ purchasedIds st, x ∈ insert tx st.attempted :=
            fun x hx => Finset.mem_insert_of_mem (hP x hx)
          have htxnp : tx ∉ purchasedIds st := fun hc => htxnin (hP tx hc)
          have herase : (insert tx st.attempted).erase tx = st.attempted :=
            Finset.erase_insert htxnin
          rcases hn : o2.name with _ | nm
          · simp only [tryBlock, hn, handleExc]
            rw [if_neg (by rw [show isRejectedMsg "Offer missing txid or ticket name"
              = false from by decide]; exact Bool.false_ne_true)]
            refine ⟨(ih (i0 + 1) (OState.mk st.purchased (st.errors ++ [(tx, "Offer missing txid or ticket name")]) (insert tx st.attempted) st.bought st.lastTxid) (O ∪ offerIds (extract_offers_list shape)) hA1 hN hP1).1, ?_,
                (ih (i0 + 1) (OState.mk st.purchased (st.errors ++ [(tx, "Offer missing txid or ticket name")]) (insert tx st.attempted) st.bought st.lastTxid) (O ∪ offerIds (extract_offers_list shape)) hA1 hN hP1).2.2⟩
            intro x hx
            have hx2 := (ih (i0 + 1) (OState.mk st.purchased (st.errors ++ [(tx, "Offer missing txid or ticket name")]) (insert tx st.attempted) st.bought st.lastTxid) (O ∪ offerIds (extract_offers_list shape)) hA1 hN hP1).2.1 x hx
            simp only [List.cons_append, List.nil_append, observedIds,
              Finset.mem_union] at hx2 ⊢
            tauto
          · rcases hid : o2.identityid with _ | iid
            · simp only [tryBlock, hn, hid, handleExc]
              rw [if_neg (by rw [show isRejectedMsg "Offer missing identityid"
                = false from by decide]; exact Bool.false_ne_true)]
              refine ⟨(ih (i0 + 1) (OState.mk st.purchased (st.errors ++ [(tx, "Offer missing identityid")]) (insert tx st.attempted) st.bought st.lastTxid) (O ∪ offerIds (extract_offers_list shape)) hA1 hN hP1).1, ?_,
                  (ih (i0 + 1) (OState.mk st.purchased (st.errors ++ [(tx, "Offer missing identityid")]) (insert tx st.attempted) st.bought st.lastTxid) (O ∪ offerIds (extract_offers_list shape)) hA1 hN hP1).2.2⟩
              intro x hx
              have hx2 := (ih (i0 + 1) (OState.mk st.purchased (st.errors ++ [(tx, "Offer missing identityid")]) (insert tx st.attempted) st.bought st.lastTxid) (O ∪ offerIds (extract_offers_list shape)) hA1 hN hP1).2.1 x hx
              simp only [List.cons_append, List.nil_append, observedIds,
                Finset.mem_union] at hx2 ⊢
              tauto
            · rcases htr : (oracle i0).takeRes with e | res
              · simp only [tryBlock, hn, hid, htr, handleExc]
                rcases hrej : isRejectedMsg e with _ | _
                · rw [if_neg Bool.false_ne_true]
                  refine ⟨(ih (i0 + 1) (OState.mk st.purchased (st.errors ++ [(tx, e)]) (insert tx st.attempted) st.bought st.lastTxid) (O ∪ offerIds (extract_offers_list shape)) hA1 hN hP1).1, ?_,
                      (ih (i0 + 1) (OState.mk st.purchased (st.errors ++ [(tx, e)]) (insert tx st.attempted) st.bought st.lastTxid) (O ∪ offerIds (extract_offers_list shape)) hA1 hN hP1).2.2⟩
                  intro x hx
                  have hx2 := (ih (i0 + 1) (OState.mk st.purchased (st.errors ++ [(tx, e)]) (insert tx st.attempted) st.bought st.lastTxid) (O ∪ offerIds (extract_offers_list shape)) hA1 hN hP1).2.1 x hx
                  simp only [List.cons_append, List.nil_append, observedIds,
                    Finset.mem_union] at hx2 ⊢
                  tauto
                · rw [if_pos rfl]
                  rcases hlt : st.lastTxid with _ | lt
                  · simp only [hlt, herase]
                    refine ⟨(ih (i0 + 1) (OState.mk st.purchased st.errors st.attempted st.bought none) (O ∪ offerIds (extract_offers_list shape)) hAO hN hP).1, ?_,
                        (ih (i0 + 1) (OState.mk st.purchased st.errors st.attempted st.bought none) (O ∪ offerIds (extract_offers_list shape)) hAO hN hP).2.2⟩
                    intro x hx
                    have hx2 := (ih (i0 + 1) (OState.mk st.purchased st.errors st.attempted st.bought none) (O ∪ offerIds (extract_offers_list shape)) hAO hN hP).2.1 x hx
                    simp only [List.cons_append, List.nil_append, observedIds,
                      Finset.mem_union] at hx2 ⊢
                    tauto
                  · simp only [hlt]
                    rcases hw2 : (oracle i0).wait2 with e2 | c2
                    · simp only [hw2, RunRes.state]
                      refine ⟨hN, ?_, hP1⟩
                      intro x hx
                      simp only [List.cons_append, List.nil_append, observedIds,
                        Finset.mem_union]
                      rcases Finset.mem_insert.mp hx with rfl | hx2
                      · exact Or.inr (Or.inl hobs)
                      · exact Or.inl (hA x hx2)
                    · simp only [hw2, herase]
                      refine ⟨(ih (i0 + 1) (OState.mk st.purchased st.errors st.attempted st.bought (some lt)) (O ∪ offerIds (extract_offers_list shape)) hAO hN hP).1, ?_,
                          (ih (i0 + 1) (OState.mk st.purchased st.errors st.attempted st.bought (some lt)) (O ∪ offerIds (extract_offers_list shape)) hAO hN hP).2.2⟩
                      intro x hx
                      have hx2 := (ih (i0 + 1) (OState.mk st.purchased st.errors st.attempted st.bought (some lt)) (O ∪ offerIds (extract_offers_list shape)) hAO hN hP).2.1 x hx
                      simp only [List.cons_append, List.nil_append, observedIds,
                        Finset.mem_union] at hx2 ⊢
                      tauto
              · simp only [tryBlock, hn, hid, htr]
                have hN1 : ((st.purchased ++ [Purchase.mk tx nm res]).map
                    Purchase.offer_txid).Nodup := by
                  rw [List.map_append]
                  refine List.Nodup.append hN (List.nodup_singleton _) ?_
                  intro a ha hb
                  simp only [List.map_cons, List.map_nil, List.mem_singleton] at hb
                  subst hb
                  exact htxnp ha
                have hPfin : ∀ x ∈ (st.purchased ++ [Purchase.mk tx nm res]).map
                    Purchase.offer_txid, x ∈ insert tx st.attempted := by
                  intro x hx
                  rw [List.map_append] at hx
                  rcases List.mem_append.mp hx with h | h
                  · exact Finset.mem_insert_of_mem (hP x h)
                  · simp only [List.map_cons, List.map_nil, List.mem_singleton] at h
                    subst h
                    exact Finset.mem_insert_self _ _
                rcases hex : truthyStr (extractTxid res) with _ | t
                · simp only [hex]
                  refine ⟨(ih (i0 + 1) (OState.mk (st.purchased ++ [Purchase.mk tx nm res]) st.errors (insert tx st.attempted) (st.bought + 1) st.lastTxid) (O ∪ offerIds (extract_offers_list shape)) hA1 hN1 hPfin).1, ?_,
                      (ih (i0 + 1) (OState.mk (st.purchased ++ [Purchase.mk tx nm res]) st.errors (insert tx st.attempted) (st.bought + 1) st.lastTxid) (O ∪ offerIds (extract_offers_list shape)) hA1 hN1 hPfin).2.2⟩
                  intro x hx
                  have hx2 := (ih (i0 + 1) (OState.mk (st.purchased ++ [Purchase.mk tx nm res]) st.errors (insert tx st.attempted) (st.bought + 1) st.lastTxid) (O ∪ offerIds (extract_offers_list shape)) hA1 hN1 hPfin).2.1 x hx
                  simp only [List.cons_append, List.nil_append, observedIds,
                    Finset.mem_union] at hx2 ⊢
                  tauto
                · simp only [hex]
                  have horph := H i0 res t htr hex
                  by_cases hq2 : st.bought + 1 < qty
                  · rw [if_pos (show st.bought + 1 < qty ∧ True from ⟨hq2, trivial⟩)]
                    rcases hw1 : (oracle i0).wait1 with e1 | c1
                    · simp only [hw1, handleExc]
                      rw [if_neg (by rw [horph]; exact Bool.false_ne_true)]
                      refine ⟨(ih (i0 + 1) (OState.mk (st.purchased ++ [Purchase.mk tx nm res]) (st.errors ++ [(tx, orphanMsg t)]) (insert tx st.attempted) (st.bought + 1) st.lastTxid) (O ∪ offerIds (extract_offers_list shape)) hA1 hN1 hPfin).1, ?_,
                          (ih (i0 + 1) (OState.mk (st.purchased ++ [Purchase.mk tx nm res]) (st.errors ++ [(tx, orphanMsg t)]) (insert tx st.attempted) (st.bought + 1) st.lastTxid) (O ∪ offerIds (extract_offers_list shape)) hA1 hN1 hPfin).2.2⟩
                      intro x hx
                      have hx2 := (ih (i0 + 1) (OState.mk (st.purchased ++ [Purchase.mk tx nm res]) (st.errors ++ [(tx, orphanMsg t)]) (insert tx st.attempted) (st.bought + 1) st.lastTxid) (O ∪ offerIds (extract_offers_list shape)) hA1 hN1 hPfin).2.1 x hx
                      simp only [List.cons_append, List.nil_append, observedIds,
                        Finset.mem_union] at hx2 ⊢
                      tauto
                    · simp only [hw1]
                      refine ⟨(ih (i0 + 1) (OState.mk (st.purchased ++ [Purchase.mk tx nm res]) st.errors (insert tx st.attempted) (st.bought + 1) st.lastTxid) (O ∪ offerIds (extract_offers_list shape)) hA1 hN1 hPfin).1, ?_,
                          (ih (i0 + 1) (OState.mk (st.purchased ++ [Purchase.mk tx nm res]) st.errors (insert tx st.attempted) (st.bought + 1) st.lastTxid) (O ∪ offerIds (extract_offers_list shape)) hA1 hN1 hPfin).2.2⟩
                      intro x hx
                      have hx2 := (ih (i0 + 1) (OState.mk (st.purchased ++ [Purchase.mk tx nm res]) st.errors (insert tx st.attempted) (st.bought + 1) st.lastTxid) (O ∪ offerIds (extract_offers_list shape)) hA1 hN1 hPfin).2.1 x hx
                      simp only [List.cons_append, List.nil_append, observedIds,
                        Finset.mem_union] at hx2 ⊢
                      tauto
                  · rw [if_neg (by intro hcon; exact hq2 hcon.1)]
                    refine ⟨(ih (i0 + 1) (OState.mk (st.purchased ++ [Purchase.mk tx nm res]) st.errors (insert tx st.attempted) (st.bought + 1) (some t)) (O ∪ offerIds (extract_offers_list shape)) hA1 hN1 hPfin).1, ?_,
                        (ih (i0 + 1) (OState.mk (st.purchased ++ [Purchase.mk tx nm res]) st.errors (insert tx st.attempted) (st.bought + 1) (some t)) (O ∪ offerIds (extract_offers_list shape)) hA1 hN1 hPfin).2.2⟩
                    intro x hx
                    have hx2 := (ih (i0 + 1) (OState.mk (st.purchased ++ [Purchase.mk tx nm res]) st.errors (insert tx st.attempted) (st.bought + 1) (some t)) (O ∪ offerIds (extract_offers_list shape)) hA1 hN1 hPfin).2.1 x hx
                    simp only [List.cons_append, List.nil_append, observedIds,
                      Finset.mem_union] at hx2 ⊢
                    tauto

/-- C2 (amended): within one run no offer id appears twice in the purchased
list, the attempted set is a subset (not in general a strict one) of the
observed offer ids, purchased ids stay in the attempted set, the try block
never removes attempted ids, and the handler removes an id exactly when the
failure message indicates rejection — all under the oracle hypothesis that
extracted transaction ids never contain the substring "rejected" (hex ids
never do). -/
theorem c2_attempted_tracking_amended (qty : ℕ) (oracle : ℕ → StepIn)
    (fw : Except Unit ℤ) (fuel : ℕ)
    (H : ∀ n r t, (oracle n).takeRes = .ok r → truthyStr (extractTxid r) = some t →
        isRejectedMsg (orphanMsg t) = false) :
    ((purchasedIds (runMain false qty oracle fw fuel).2.state).Nodup)
    ∧ ((runMain false qty oracle fw fuel).2.state.attempted
        ⊆ observedIds (runMain false qty oracle fw fuel).1)
    ∧ (∀ x ∈ purchasedIds (runMain false qty oracle fw fuel).2.state,
        x ∈ (runMain false qty oracle fw fuel).2.state.attempted)
    ∧ (∀ (dry : Bool) (q2 : ℕ) (inp : StepIn) (o : RawOffer) (otx : String)
        (st : OState), ((tryBlock dry q2 inp o otx st).2).state.attempted = st.attempted)
    ∧ (∀ (inp : StepIn) (otx msg : String) (st st2 : OState),
        (handleExc inp otx msg st).2 = .ok st2 →
        st2.attempted = if isRejectedMsg msg then st.attempted.erase otx
          else st.attempted) := by
  obtain ⟨g1, g2, g3⟩ := runO_invariants qty oracle fw H fuel 0 initState ∅
    (fun x hx => absurd hx (Finset.not_mem_empty x))
    List.nodup_nil
    (fun x hx => absurd hx (List.not_mem_nil x))
  refine ⟨g1, ?_, g3, ?_, ?_⟩
  · intro x hx
    have := g2 x hx
    simpa using this
  · intro dry q2 inp o otx st
    rcases hn : o.name with _ | nm
    · simp [tryBlock, hn, TryRes.state]
    · rcases hid : o.identityid with _ | iid
      · simp [tryBlock, hn, hid, TryRes.state]
      · rcases htr : inp.takeRes with e | res
        · simp [tryBlock, hn, hid, htr, TryRes.state]
        · rcases hex : truthyStr (extractTxid res) with _ | t
          · simp [tryBlock, hn, hid, htr, hex, TryRes.state]
          · by_cases hc : st.bought + 1 < q2 ∧ dry = false
            · rcases hw : inp.wait1 with e1 | c1 <;>
                simp [tryBlock, hn, hid, htr, hex, hw, hc, TryRes.state]
            · simp [tryBlock, hn, hid, htr, hex, hc, TryRes.state]
  · intro inp otx msg st st2 h
    rcases hrej : isRejectedMsg msg with _ | _
    · rw [if_neg Bool.false_ne_true]
      simp only [handleExc, hrej, Bool.false_eq_true, if_false] at h
      cases h
      rfl
    · rw [if_pos rfl]
      simp only [handleExc, hrej, if_true] at h
      rcases hlt : st.lastTxid with _ | lt
      · rw [hlt] at h
        cases h
        rfl
      · rw [hlt] at h
        rcases hw2 : inp.wait2 with e2 | c2
        · rw [hw2] at h
          cases h
        · rw [hw2] at h
          cases h
          rfl

theorem c2_witness :
    (purchasedIds (runMain false 1 c2CexOracle (.ok 1) 2).2.state).Nodup
    ∧ (runMain false 1 c2CexOracle (.ok 1) 2).2.state.attempted
        ⊆ observedIds (runMain false 1 c2CexOracle (.ok 1) 2).1 := by
  have h := c2_attempted_tracking_amended 1 c2CexOracle (.ok 1) 2 (by
    intro n r t h1 h2
    have h1' : TakeRpcRes.rstr "ok" = r := by
      have : (c2CexOracle n).takeRes = .ok (.rstr "ok") := rfl
      rw [this] at h1
      injection h1
    subst h1'
    have hnone : truthyStr (extractTxid (TakeRpcRes.rstr "ok")) = none := by decide
    rw [hnone] at h2
    exact Option.noConfusion h2)
  exact ⟨h.1, h.2.1⟩

/-- C2 counterexample: a run that buys the only observed offer ends with its
attempted set equal to the observed id set, so the attempted set is not a
strict subset of the observed ids as the claim states. -/
theorem c2_counterexample :
    (runMain false 1 c2CexOracle (.ok 1) 2).2.state.attempted
      = observedIds (runMain false 1 c2CexOracle (.ok 1) 2).1
    ∧ ¬ ((runMain false 1 c2CexOracle (.ok 1) 2).2.state.attempted
        ⊂ observedIds (runMain false 1 c2CexOracle (.ok 1) 2).1) := by
  constructor
  · decide
  · decide

end Vlotto
